import Mathlib

/-!
Verification of the QDeep/MatrixP core against its specification.

This file contains a shallow embedding, in Lean 4, of the parts of the C
source (src/mp_chunk.c, src/mp_chunk.h, src/mp_page.c, src/mp_page.h,
src/mp_pool.c, src/mp_pool.h, src/mp_matrix.c, src/mp_matrix.h) that the
frozen claims are about, followed by theorems settling each claim.

Modelling conventions:
  - machine integers become `Nat` (with explicit `% 2 ^ 64` where the C
    relies on `uint64_t` wrap-around);
  - a file descriptor's incoming/outgoing byte stream becomes `List Nat`
    (each entry one byte, `< 256`);
  - pointer-linked structures are modelled as heaps: nodes are numeric
    ids, the heap is a total function from id to node record, and a C
    pointer assignment `x->f = v` becomes `Function.update heap x ...`;
  - uninitialized memory that the C reads (for example the garbage
    `tree->sides[-1]` read by `rb_tree_remove` when the removed node is
    the root) is modelled by the fixed junk value that the corresponding
    total function carries at that point; paths on which that value is
    actually used are undefined behaviour in the C and are avoided by the
    concrete executions below;
  - the reference platform is little-endian Linux/x86-64 (the source uses
    `be64toh`/`htobe64` for the wire and raw `pwrite` of host memory for
    the file header, and `splice` for bulk transfer), so a raw write of a
    `uint64_t` is modelled as its little-endian bytes.
-/

/- ══════════════════════════════════════════════════════════════════════
   Constants from mp_chunk.h, mp_page.h
   ══════════════════════════════════════════════════════════════════════ -/

/-- Value `MP_BLACK` from mp_chunk.h. -/
def MP_BLACK : Nat := 0

/-- Value `MP_RED` from mp_chunk.h. -/
def MP_RED : Nat := 1

/-- Value `CHUNK_W = 1 << CHUNK_POW` with `CHUNK_POW = 8` (mp_chunk.h). -/
def CHUNK_W : Nat := 256

/-- Value `CHUNK_SIZE = 1 << (CHUNK_POW + CHUNK_POW)` (mp_chunk.h). -/
def CHUNK_SIZE : Nat := 65536

/-- Number of chunks per page, `PAGE_SIZE` from mp_page.h. -/
def PAGE_SIZE : Nat := 1024

/-- Sentinel `UINT16_MAX` used as the empty free-ring marker (mp_page.h). -/
def UINT16_MAX : Nat := 65535

/-- Sentinel `UINT64_MAX`, used by mp_matrix to invalidate the lookup
cache offset (mp_matrix.h, `tree->offset.pos = UINT64_MAX`). -/
def UINT64_MAX : Nat := 18446744073709551615

/-- Size in bytes of one matrix element, `sizeof(int64_t)`. -/
def SIZE_D : Nat := 8

/- ══════════════════════════════════════════════════════════════════════
   Chunk I/O (src/mp_chunk.c) — claim C2
   ══════════════════════════════════════════════════════════════════════ -/

/-- Drain of the inner `while (rem > 0) read(...)` loop of
`mp_chunk_recv`: the loop keeps reading until `rem` bytes arrived,
retrying on `EINTR`; a clean EOF or a real error aborts with `-1`.  Net
effect on a byte stream: exactly `n` bytes are consumed, or the call
fails when the stream ends first. -/
def readFull (stream : List Nat) (n : Nat) : Option (List Nat × List Nat) :=
  if n ≤ stream.length then some (stream.take n, stream.drop n) else none

/-- Row loop of `mp_chunk_recv` (mp_chunk.c lines 20-38).  One iteration
reads `size_x * size_d` bytes into destination offset `ptr`, then
advances `ptr` by the full row stride `CHUNK_W * size_d` (the read bytes
plus the `(CHUNK_W - size_x) * size_d` alignment skip).  `iters` is the
number of remaining loop iterations.  The result is the list of
(destination byte offset, byte) stores together with the unread rest of
the stream. -/
def mp_chunk_recv_rows (size_x : Nat) (stream : List Nat) (ptr : Nat) :
    Nat → Option (List (Nat × Nat) × List Nat)
  | 0 => some ([], stream)
  | iters + 1 =>
    match readFull stream (size_x * SIZE_D) with
    | none => none
    | some (row, rest) =>
      match mp_chunk_recv_rows size_x rest (ptr + CHUNK_W * SIZE_D) iters with
      | none => none
      | some (writes, rest2) =>
        some ((List.range (size_x * SIZE_D)).map (fun i => (ptr + i, row.getD i 0)) ++ writes,
              rest2)

/-- Model of `mp_chunk_recv` (mp_chunk.c lines 12-41).  The C computes
`size_x = chunk->size.dim.x + 1`, `size_y = chunk->size.dim.y + 1` and
then loops `for (_y = 0; _y <= size_y; _y++)` — an INCLUSIVE bound, so
the row loop body runs `size_y + 1` times.  Inputs are the stored size
fields `dim.x`, `dim.y` and the byte stream of the descriptor. -/
def mp_chunk_recv (dimx dimy : Nat) (stream : List Nat) :
    Option (List (Nat × Nat) × List Nat) :=
  let size_x := dimx + 1
  let size_y := dimy + 1
  mp_chunk_recv_rows size_x stream 0 (size_y + 1)

/-- Model of `mp_chunk_send` (mp_chunk.c lines 52-81): same loop shape as
`mp_chunk_recv`, producing the bytes written to the descriptor.  The
chunk payload is a function from byte offset to byte. -/
def mp_chunk_send_rows (size_x : Nat) (data : Nat → Nat) (ptr : Nat) :
    Nat → List Nat
  | 0 => []
  | iters + 1 =>
    (List.range (size_x * SIZE_D)).map (fun i => data (ptr + i)) ++
      mp_chunk_send_rows size_x data (ptr + CHUNK_W * SIZE_D) iters

/-- Model of `mp_chunk_send` at the chunk level: stored size fields in,
byte list out. -/
def mp_chunk_send (dimx dimy : Nat) (data : Nat → Nat) : List Nat :=
  let size_x := dimx + 1
  let size_y := dimy + 1
  mp_chunk_send_rows size_x data 0 (size_y + 1)

/-- Number of bytes `mp_chunk_recv` consumes from the stream when it
succeeds. -/
def mp_chunk_recv_consumed (dimx dimy : Nat) : Nat :=
  ((dimy + 1) + 1) * ((dimx + 1) * SIZE_D)

/- ══════════════════════════════════════════════════════════════════════
   Matrix header framing and set_size (src/mp_matrix.c) — claims C1, C6
   ══════════════════════════════════════════════════════════════════════ -/

/-- Big-endian byte encoding of a `uint64_t` (what `htobe64` stores). -/
def be64bytes (v : Nat) : List Nat :=
  [v / 2 ^ 56 % 256, v / 2 ^ 48 % 256, v / 2 ^ 40 % 256, v / 2 ^ 32 % 256,
   v / 2 ^ 24 % 256, v / 2 ^ 16 % 256, v / 2 ^ 8 % 256, v % 256]

/-- Little-endian byte encoding of a `uint64_t` — the in-memory layout of
the value on the (little-endian) reference platform, hence what a raw
`pwrite` of the value stores. -/
def le64bytes (v : Nat) : List Nat :=
  [v % 256, v / 2 ^ 8 % 256, v / 2 ^ 16 % 256, v / 2 ^ 24 % 256,
   v / 2 ^ 32 % 256, v / 2 ^ 40 % 256, v / 2 ^ 48 % 256, v / 2 ^ 56 % 256]

/-- Decode 8 bytes interpreted big-endian (what `be64toh` yields from the
bytes placed in memory by the receive loop). -/
def be64toh (bytes : List Nat) : Nat :=
  bytes.foldl (fun acc b => acc * 256 + b) 0

/-- Model of `ftruncate(fd, n)` on a file held as a byte list: the file
is cut or zero-extended to exactly `n` bytes. -/
def ftruncateFile (file : List Nat) (n : Nat) : List Nat :=
  file.take n ++ List.replicate (n - file.length) 0

/-- Model of `pwrite(fd, buf, len, 0)`: overwrite the file prefix with
`bytes`. -/
def pwriteAt0 (file : List Nat) (bytes : List Nat) : List Nat :=
  bytes ++ file.drop bytes.length

/-- Matrix state relevant to `mp_matrix_set_size` and the header framing:
declared size, presence of a backing fd, and the backing file bytes. -/
structure mp_matrix_f where
  size_x : Nat
  size_y : Nat
  fd : Bool
  file : List Nat

/-- Injected syscall outcomes for one `mp_matrix_set_size` call. -/
structure IoEnv where
  ftruncateFail : Bool
  pwriteFail : Bool

/-- Model of `mp_matrix_set_size` from src/mp_matrix.c lines 294-312 (the
compiled, non-inline variant).  It requires a valid fd, truncates the
file to `sizeof(mp_msize) + size.x * size.y * sizeof(int64_t)` (uint64
arithmetic), then `pwrite`s the raw `mp_msize` struct — two host-order
(little-endian) `uint64_t`s — at offset 0, and only on full success
assigns `matx->size = size`.  Failure paths return `-1` without touching
`matx->size`. -/
def mp_matrix_set_size (matx : mp_matrix_f) (sx sy : Nat) (env : IoEnv) :
    Int × mp_matrix_f :=
  if matx.fd = false then (-1, matx)
  else
    let header_size : Nat := 16
    let data_size := sx * sy * SIZE_D % 2 ^ 64
    let total_size := (header_size + data_size) % 2 ^ 64
    if env.ftruncateFail then (-1, matx)
    else
      let m1 := { matx with file := ftruncateFile matx.file total_size }
      if env.pwriteFail then (-1, m1)
      else
        (0, { m1 with file := pwriteAt0 m1.file (le64bytes sx ++ le64bytes sy),
                      size_x := sx, size_y := sy })

/-- Model of the `static __inline__` variant of `mp_matrix_set_size` from
src/mp_matrix.h lines 366-376.  It truncates the file to 0 and then to
the total size (never writing any header bytes), and assigns
`matx->size` on BOTH outcomes: the requested size on success, `{0, 0}`
on truncation failure.  A missing fd returns `-1` before any
assignment. -/
def mp_matrix_set_size_inline (matx : mp_matrix_f) (sx sy : Nat) (env : IoEnv) :
    Int × mp_matrix_f :=
  if matx.fd = false then (-1, matx)
  else
    let header_size : Nat := 16
    let data_size := sx * sy * SIZE_D % 2 ^ 64
    let total_size := (header_size + data_size) % 2 ^ 64
    if env.ftruncateFail then (-1, { matx with size_x := 0, size_y := 0 })
    else
      (0, { matx with file := ftruncateFile (ftruncateFile matx.file 0) total_size,
                      size_x := sx, size_y := sy })

/-- Value `sizeof(uint64_t)`: this — not `sizeof(hdr) = 16` — is what
both header drain loops in mp_matrix.c load into `rem`. -/
def SIZEOF_UINT64 : Nat := 8

/-- Model of `mp_matrix_send_msize` (mp_matrix.c lines 418-443).  The
function packs `htobe64(size.x)` into `hdr[0..8)` and `htobe64(size.y)`
into `hdr[8..16)`, but the drain loop starts from `rem =
sizeof(uint64_t)`, so exactly the first 8 bytes of `hdr` go out on the
wire. -/
def mp_matrix_send_msize (sx sy : Nat) : List Nat :=
  let hdr := be64bytes sx ++ be64bytes sy
  hdr.take SIZEOF_UINT64

/-- Model of `mp_matrix_recv_msize` (mp_matrix.c lines 381-410).  The
drain loop fills `hdr[0..8)` from the descriptor (`rem =
sizeof(uint64_t)` again); `hdr[8..16)` keeps whatever was on the stack —
passed here as `junk`.  Then `x` is decoded from `hdr[0..8)` and `y`
from `hdr[8..16)` with `be64toh`, and `mp_matrix_set_size` is called.
Returns the status, the updated matrix and the unread stream rest, or
fails (`-1`, matrix untouched) on EOF before 8 bytes arrived. -/
def mp_matrix_recv_msize (matx : mp_matrix_f) (stream : List Nat)
    (junk : List Nat) (env : IoEnv) : Int × mp_matrix_f × List Nat :=
  if stream.length < SIZEOF_UINT64 then (-1, matx, stream)
  else
    let hdr := stream.take SIZEOF_UINT64 ++ junk.take 8
    let x := be64toh (hdr.take 8)
    let y := be64toh (hdr.drop 8)
    let r := mp_matrix_set_size matx x y env
    (r.1, r.2, stream.drop SIZEOF_UINT64)

/- ══════════════════════════════════════════════════════════════════════
   Page free-ring (src/mp_page.c) — claim C8
   ══════════════════════════════════════════════════════════════════════ -/

/-- Ring-relevant part of `mp_page`: the intrusive `next`/`prev` position
arrays and the ring head `free` (mp_page.h).  The arrays are modelled as
total functions on positions; the C leaves them uninitialized at
`mp_page_init`, which the model reflects by an arbitrary initial
function. -/
structure mp_page_ring where
  next : Nat → Nat
  prev : Nat → Nat
  free : Nat

/-- Model of `mp_page_get_pos` (mp_page.c lines 82-98): remove `pos` from
the free-ring.  Single-element rings (`next[pos] == pos`) empty the ring;
otherwise the neighbours are relinked in the C's assignment order and the
head is advanced when `pos` was the head. -/
def mp_page_get_pos (page : mp_page_ring) (pos : Nat) : mp_page_ring :=
  if page.next pos = pos then
    { page with free := UINT16_MAX }
  else
    let prev1 := Function.update page.prev (page.next pos) (page.prev pos)
    let next1 := Function.update page.next (prev1 pos) (page.next pos)
    let free1 := if page.free = pos then next1 pos else page.free
    { next := next1, prev := prev1, free := free1 }

/-- Model of `mp_page_ret_pos` (mp_page.c lines 104-127): insert `pos`
into the free-ring.  An empty ring becomes the self-loop `{pos}` with
head `pos`; otherwise `pos` is linked in just before the current head
(becoming the ring's tail). -/
def mp_page_ret_pos (page : mp_page_ring) (pos : Nat) : mp_page_ring :=
  if page.free = UINT16_MAX then
    { next := Function.update page.next pos pos,
      prev := Function.update page.prev pos pos,
      free := pos }
  else
    let tail := page.prev page.free
    let next1 := Function.update page.next pos page.free
    let prev1 := Function.update page.prev pos tail
    let next2 := Function.update next1 tail pos
    let prev2 := Function.update prev1 page.free pos
    { next := next2, prev := prev2, free := page.free }

/-- Adjacency property along the ring order: `next` of an element is its
successor and `prev` of the successor is the element. -/
def ringStep (page : mp_page_ring) (a b : Nat) : Prop :=
  page.next a = b ∧ page.prev b = a

/-- Abstraction relation between a page's ring fields and the list of
current ring members in head order: the members are distinct valid
positions, `free` is the head (or the empty sentinel), the linear chain
holds, and the wrap-around link closes the cycle. -/
def ringRep (page : mp_page_ring) (L : List Nat) : Prop :=
  L.Nodup ∧ (∀ i ∈ L, i < PAGE_SIZE) ∧
  match L with
  | [] => page.free = UINT16_MAX
  | h :: t =>
    page.free = h ∧ List.Chain' (ringStep page) (h :: t) ∧
    ∀ x ∈ (h :: t).getLast?, ringStep page x h

/-- One abstract ring operation: `get pos` models `mp_page_get_pos` (and
thereby `mp_page_get`/the ring branch of `mp_page_get_new`), `ret pos`
models `mp_page_ret_pos` (and thereby `mp_page_ret`). -/
inductive RingOp where
  | get (pos : Nat)
  | ret (pos : Nat)

/-- Model-side effect of one valid ring operation on the member list;
`none` when the operation's precondition (remove a current member /
insert a fresh valid position) is violated. -/
def ringModelStep (L : List Nat) : RingOp → Option (List Nat)
  | .get pos =>
    if pos ∈ L then
      some (if L.head? = some pos then L.tail else L.erase pos)
    else none
  | .ret pos =>
    if pos < PAGE_SIZE ∧ pos ∉ L then some (L ++ [pos]) else none

/-- Code-side effect of one ring operation. -/
def ringApply (p : mp_page_ring) : RingOp → mp_page_ring
  | .get pos => mp_page_get_pos p pos
  | .ret pos => mp_page_ret_pos p pos

/-- Run a sequence of ring operations against both the code state and the
model list, checking validity at every step. -/
def runRing : mp_page_ring × List Nat → List RingOp → Option (mp_page_ring × List Nat)
  | s, [] => some s
  | s, op :: ops =>
    match ringModelStep s.2 op with
    | none => none
    | some L' => runRing (ringApply s.1 op, L') ops

/- ══════════════════════════════════════════════════════════════════════
   Pool (src/mp_pool.c, src/mp_pool.h, src/mp_page.c) — claims C3, C7, C9
   ══════════════════════════════════════════════════════════════════════ -/

/-- Page descriptor as the pool sees it (mp_page.h `struct mp_page`):
base address of the mmap data region, base address of the embedded
`chunk[PAGE_SIZE]` descriptor array (both abstract byte/object
addresses), the free-ring, the high-water mark `fill`, the RB-tree links
and colour, and the circular list links.  Page identity is a numeric id;
`sides`/`nextp`/`prevp` store ids. -/
structure mp_page_s where
  dataAddr : Nat
  chunkAddr : Nat
  ring : mp_page_ring
  fill : Nat
  sides : Nat → Option Nat
  color : Nat
  nextp : Option Nat
  prevp : Option Nat

/-- Pool state (mp_pool.h `struct mp_pool`): list head, tree root, page
count, plus the store of page descriptors and the allocation counter
that models the sequence of `malloc`/`mmap` results. -/
structure mp_pool_s where
  head : Option Nat
  root : Option Nat
  size : Nat
  pages : Nat → mp_page_s
  npages : Nat

/-- Environment of one pool operation: whether `malloc` and `mmap` fail,
and the addresses the allocator hands out for the i-th page created. -/
structure PoolEnv where
  mallocFail : Bool
  mmapFail : Bool
  chunkAddrOf : Nat → Nat
  dataAddrOf : Nat → Nat

/-- A chunk handle: the id of the owning page and the position within it.
The C passes raw `mp_chunk *` pointers; the descriptor address is
recovered as `chunkAddr + pos` (one abstract unit per descriptor) and the
payload address as `dataAddr + pos * CHUNK_SIZE`. -/
def chunkDescAddr (pool : mp_pool_s) (c : Nat × Nat) : Nat :=
  (pool.pages c.1).chunkAddr + c.2

/-- Payload address of a chunk handle (`chunk->data`). -/
def chunkDataAddr (pool : mp_pool_s) (c : Nat × Nat) : Nat :=
  (pool.pages c.1).dataAddr + c.2 * CHUNK_SIZE

/-- Model of `mp_page_init` (mp_page.c lines 19-55) on success: bind the
mmap and descriptor addresses, reset list links, set `free` empty and
`fill` zero.  The C leaves `next`/`prev` (and the tree links/colour)
uninitialized; the model gives them fixed junk. -/
def mp_page_init (env : PoolEnv) (i : Nat) : mp_page_s :=
  { dataAddr := env.dataAddrOf i
    chunkAddr := env.chunkAddrOf i
    ring := { next := fun _ => 0, prev := fun _ => 0, free := UINT16_MAX }
    fill := 0
    sides := fun _ => none
    color := 0
    nextp := none
    prevp := none }

/-- Model of `mp_page_full` (mp_page.h lines 179-182). -/
def mp_page_full (page : mp_page_s) : Bool :=
  page.fill == PAGE_SIZE && page.ring.free == UINT16_MAX

/-- Model of `mp_page_get_new` (mp_page.c lines 145-157): serve the next
never-issued position while `fill < PAGE_SIZE`, else pop the ring head,
else fail. -/
def mp_page_get_new (page : mp_page_s) : Option Nat × mp_page_s :=
  let pos := page.ring.free
  if page.fill < PAGE_SIZE then
    (some page.fill, { page with fill := page.fill + 1 })
  else if pos = UINT16_MAX then (none, page)
  else (some pos, { page with ring := mp_page_get_pos page.ring pos })

/-- Model of `mp_pool_list_insert` (mp_pool.c lines 13-26): push a page
at the head of the circular list. -/
def mp_pool_list_insert (pool : mp_pool_s) (pid : Nat) : mp_pool_s :=
  match pool.head with
  | none =>
    let pages1 := Function.update pool.pages pid
      { pool.pages pid with nextp := some pid, prevp := some pid }
    { pool with head := some pid, size := pool.size + 1, pages := pages1 }
  | some h =>
    let last := ((pool.pages h).prevp).getD h
    let pages1 := Function.update pool.pages pid
      { pool.pages pid with nextp := some h, prevp := some last }
    let pages2 := Function.update pages1 h { pages1 h with prevp := some pid }
    let pages3 := Function.update pages2 last { pages2 last with nextp := some pid }
    { pool with head := some pid, size := pool.size + 1, pages := pages3 }

/-- Model of `mp_pool_list_remove` (mp_pool.c lines 31-40). -/
def mp_pool_list_remove (pool : mp_pool_s) (pid : Nat) : mp_pool_s :=
  let prev := ((pool.pages pid).prevp).getD pid
  let next := ((pool.pages pid).nextp).getD pid
  let pages1 := Function.update pool.pages prev
    { pool.pages prev with nextp := some next }
  let pages2 := Function.update pages1 next { pages1 next with prevp := some prev }
  let size1 := pool.size - 1
  { pool with
    pages := pages2, size := size1,
    head := if size1 = 0 then none
            else if pool.head = some pid then some next else pool.head }

/-- Model of `mp_pool_list_rotate` (mp_pool.c lines 45-48). -/
def mp_pool_list_rotate (pool : mp_pool_s) : mp_pool_s :=
  match pool.head with
  | none => pool
  | some h => { pool with head := (pool.pages h).nextp }

/-- Descent of `mp_pool_tree_insert`'s find-position loop (mp_pool.c
lines 70-74), collecting the visited nodes and the side taken at each as
the C does in `pool->stack`/`pool->sides` (here an explicit list, deepest
entry last). -/
def mp_pool_tree_insert_walk (pool : mp_pool_s) (dnew : Nat) :
    Option Nat → List (Nat × Nat) → Nat → List (Nat × Nat)
  | none, acc, _ => acc
  | some _, acc, 0 => acc
  | some n, acc, fuel + 1 =>
    let side : Nat := if (pool.pages n).dataAddr < dnew then 1 else 0
    mp_pool_tree_insert_walk pool dnew ((pool.pages n).sides side)
      (acc ++ [(n, side)]) fuel

/-- Rebalance loop of `mp_pool_tree_insert` (mp_pool.c lines 85-116),
walking the collected stack bottom-up.  `stk` is the ancestor stack,
`idx` the current value of `pos` AFTER the `--pos` of the loop head (the
grandparent index). -/
def mp_pool_tree_insert_fix (stk : List (Nat × Nat)) :
    mp_pool_s → Nat → Nat → mp_pool_s
  | pool, _, 0 => pool
  | pool, idx, fuel + 1 =>
    match stk.get? idx, stk.get? (idx + 1) with
    | some (g, side), some (x, sidex) =>
      if (pool.pages x).color = MP_BLACK then pool
      else
        let yOpt := (pool.pages g).sides (1 - side)
        let redUncle : Bool := match yOpt with
          | some y => (pool.pages y).color == MP_RED
          | none => false
        if redUncle then
          let y := yOpt.getD 0
          let pg1 := Function.update pool.pages x
            { pool.pages x with color := MP_BLACK }
          let pg2 := Function.update pg1 y { pg1 y with color := MP_BLACK }
          let pg3 := Function.update pg2 g { pg2 g with color := MP_RED }
          if idx < 2 then { pool with pages := pg3 }
          else mp_pool_tree_insert_fix stk { pool with pages := pg3 } (idx - 2) fuel
        else
          let (pg4, x1) :=
            if side = 1 - sidex then
              let y := ((pool.pages x).sides (1 - side)).getD 0
              let pa := Function.update pool.pages x
                { pool.pages x with
                  sides := Function.update (pool.pages x).sides (1 - side)
                    ((pool.pages y).sides side) }
              let pb := Function.update pa y
                { pa y with sides := Function.update (pa y).sides side (some x) }
              let pc := Function.update pb g
                { pb g with sides := Function.update (pb g).sides side (some y) }
              (pc, y)
            else (pool.pages, x)
          let pg5 := Function.update pg4 g { pg4 g with color := MP_RED }
          let pg6 := Function.update pg5 x1 { pg5 x1 with color := MP_BLACK }
          let pg7 := Function.update pg6 g
            { pg6 g with
              sides := Function.update (pg6 g).sides side ((pg6 x1).sides (1 - side)) }
          let pg8 := Function.update pg7 x1
            { pg7 x1 with sides := Function.update (pg7 x1).sides (1 - side) (some g) }
          if idx = 0 then { pool with pages := pg8, root := some x1 }
          else
            match stk.get? (idx - 1) with
            | some (par, sidep) =>
              let pg9 := Function.update pg8 par
                { pg8 par with
                  sides := Function.update (pg8 par).sides sidep (some x1) }
              { pool with pages := pg9 }
            | none => { pool with pages := pg8 }
    | _, _ => pool

/-- Model of `mp_pool_tree_insert` (mp_pool.c lines 63-119): walk to the
insert position recording the path, attach the page red with null
children, rebalance bottom-up, and force the root black. -/
def mp_pool_tree_insert (pool : mp_pool_s) (pid : Nat) : mp_pool_s :=
  let dnew := (pool.pages pid).dataAddr
  let stk := mp_pool_tree_insert_walk pool dnew pool.root [] 64
  let pg0 := Function.update pool.pages pid
    { pool.pages pid with color := MP_RED, sides := fun _ => none }
  let pool1 :=
    match stk.getLast? with
    | none => { pool with pages := pg0, root := some pid }
    | some (par, side) =>
      let pg1 := Function.update pg0 par
        { pg0 par with sides := Function.update (pg0 par).sides side (some pid) }
      { pool with pages := pg1 }
  let pool2 :=
    if stk.length ≥ 2 then mp_pool_tree_insert_fix stk pool1 (stk.length - 2) 64
    else pool1
  match pool2.root with
  | none => pool2
  | some r =>
    { pool2 with
      pages := Function.update pool2.pages r { pool2.pages r with color := MP_BLACK } }

/-- Model of `mp_pool_tree_find` (mp_pool.c lines 124-133).  NOTE the
transcription is literal: the walk starts from `pool->head` — the LIST
head — not from `pool->root`, and descends through the tree `sides`
links comparing `data` addresses, stopping when the chunk's descriptor
address lies inside a page's `chunk` array. -/
def mp_pool_tree_find (pool : mp_pool_s) (caddr cdata : Nat) : Nat → Option Nat
  | 0 => none
  | fuel + 1 =>
    match pool.head with
    | none => none
    | some _ => mp_pool_tree_find_go pool caddr cdata pool.head (fuel + 1)
where
  /-- Loop body of `mp_pool_tree_find`. -/
  mp_pool_tree_find_go (pool : mp_pool_s) (caddr cdata : Nat) :
      Option Nat → Nat → Option Nat
    | none, _ => none
    | some _, 0 => none
    | some n, fuel + 1 =>
      if (pool.pages n).chunkAddr ≤ caddr ∧ caddr < (pool.pages n).chunkAddr + PAGE_SIZE
      then some n
      else
        mp_pool_tree_find_go pool caddr cdata
          ((pool.pages n).sides (if (pool.pages n).dataAddr < cdata then 1 else 0)) fuel

/-- Condition under which `mp_pool_get` takes its page-creation branch
(mp_pool.c line 154): no head page, or the head page is full. -/
def mp_pool_need_new (pool : mp_pool_s) : Bool :=
  match pool.head with
  | none => true
  | some h => mp_page_full (pool.pages h)

/-- Model of `mp_pool_get` (mp_pool.c lines 149-169).  On the creation
branch, a failed `malloc` or a failed `mp_page_init` returns `(none,
pool)` — the freshly allocated descriptor is freed and neither index nor
`size` is touched.  On success a chunk is issued from the (possibly new)
head page and the list is rotated when that page became full. -/
def mp_pool_get (pool : mp_pool_s) (env : PoolEnv) : Option (Nat × Nat) × mp_pool_s :=
  if mp_pool_need_new pool then
    if env.mallocFail then (none, pool)
    else if env.mmapFail then (none, pool)
    else
      let pid := pool.npages
      let page := mp_page_init env pid
      let pool1 := { pool with pages := Function.update pool.pages pid page,
                               npages := pid + 1 }
      let pool2 := mp_pool_tree_insert pool1 pid
      let pool3 := mp_pool_list_insert pool2 pid
      let r := mp_page_get_new (pool3.pages pid)
      let pool4 := { pool3 with pages := Function.update pool3.pages pid r.2 }
      let pool5 := if mp_page_full (pool4.pages pid) then mp_pool_list_rotate pool4
                   else pool4
      (r.1.map (fun pos => (pid, pos)), pool5)
  else
    let h := pool.head.getD 0
    let r := mp_page_get_new (pool.pages h)
    let pool4 := { pool with pages := Function.update pool.pages h r.2 }
    let pool5 := if mp_page_full (pool4.pages h) then mp_pool_list_rotate pool4
                 else pool4
    (r.1.map (fun pos => (h, pos)), pool5)

/-- Model of `mp_pool_ret` (mp_pool.c lines 178-186): resolve the owning
page with `mp_pool_tree_find`, return the chunk to that page's ring,
then move the page to the list head.  When the find comes back null the
C dereferences the null page pointer inside `mp_page_ret` — modelled as
`none` (crash). -/
def mp_pool_ret (pool : mp_pool_s) (c : Nat × Nat) : Option mp_pool_s :=
  let caddr := chunkDescAddr pool c
  let cdata := chunkDataAddr pool c
  match mp_pool_tree_find pool caddr cdata 64 with
  | none => none
  | some pid =>
    let pos := caddr - (pool.pages pid).chunkAddr
    let pg1 := { pool.pages pid with
                 ring := mp_page_ret_pos (pool.pages pid).ring pos }
    let pool1 := { pool with pages := Function.update pool.pages pid pg1 }
    some (mp_pool_list_insert (mp_pool_list_remove pool1 pid) pid)

/-- Concrete allocator environment used by the counterexample runs:
page i's descriptor array lives at `(i+1) * 2^20`, its data mapping at
`(i+1) * 2^40`; all allocations succeed. -/
def envC : PoolEnv :=
  { mallocFail := false, mmapFail := false,
    chunkAddrOf := fun i => (i + 1) * 2 ^ 20,
    dataAddrOf := fun i => (i + 1) * 2 ^ 40 }

/-- Junk page record behind unallocated page ids. -/
def blankPage : mp_page_s :=
  { dataAddr := 0, chunkAddr := 0,
    ring := { next := fun _ => 0, prev := fun _ => 0, free := 0 },
    fill := 0, sides := fun _ => none, color := 0, nextp := none, prevp := none }

/-- A fresh pool, as left by `mp_pool_init` (mp_pool.h lines 68-73). -/
def initPool : mp_pool_s :=
  { head := none, root := none, size := 0, pages := fun _ => blankPage, npages := 0 }

/-- Iterated `mp_pool_get` (discarding the issued chunks). -/
def mp_pool_getN : Nat → mp_pool_s → mp_pool_s
  | 0, pool => pool
  | n + 1, pool => (mp_pool_get (mp_pool_getN n pool) envC).2

/-- Explicit form of page 0 after `k` chunks have been issued from it
(1 ≤ k): data/descriptor addresses from `envC`, high-water mark `k`,
empty ring, black tree root with no children, self-linked list node. -/
def page0After (k : Nat) : mp_page_s :=
  { dataAddr := 2 ^ 40, chunkAddr := 2 ^ 20,
    ring := { next := fun _ => 0, prev := fun _ => 0, free := UINT16_MAX },
    fill := k, sides := fun _ => none, color := 0,
    nextp := some 0, prevp := some 0 }

/-- Explicit form of the pool after `k` calls of `mp_pool_get` for
1 ≤ k ≤ PAGE_SIZE: a single page holding all issued chunks. -/
def poolAfter (k : Nat) : mp_pool_s :=
  { head := some 0, root := some 0, size := 1,
    pages := Function.update (fun _ => blankPage) 0 (page0After k), npages := 1 }

/-- Pool state right after the `PAGE_SIZE + 1`-th `mp_pool_get`: page 0
full, the fresh page 1 holding one issued chunk at the list head. -/
def poolStar : mp_pool_s := (mp_pool_get (poolAfter PAGE_SIZE) envC).2

/- ══════════════════════════════════════════════════════════════════════
   Matrix spatial index (src/mp_matrix.c) — claims C4, C5, C10
   ══════════════════════════════════════════════════════════════════════ -/

/-- Tree-relevant part of `mp_chunk` (mp_chunk.h): RB links `sides[0]`,
`sides[1]` (indexed 0/1 as in the C, which computes `side ^ 1`), node
colour, and the packed 64-bit offset `offset.pos`.  Chunks live in a
heap addressed by numeric id. -/
structure mp_chunk_s where
  sides : Nat → Option Nat
  color : Nat
  opos : Nat

/-- State of `mp_tree` (mp_matrix.h): root, lookup cache `(find,
offset)`, the shared path stack `stack`/`sides` with its cursor `pos`
(an `int32_t`, hence `Int` — `rb_tree_remove` reads `sides[pos]` at
`pos = -1`, an out-of-bounds access that the model maps to the junk the
total function carries there), the chunk heap, and an allocation
counter standing for the pool handing out fresh chunk descriptors. -/
structure mp_tree_s where
  root : Option Nat
  find : Option Nat
  offset : Nat
  pos : Int
  stack : Int → Nat
  sides : Int → Nat
  heap : Nat → mp_chunk_s
  alloc : Nat

/-- Model of `mp_coffs_cmp` (mp_chunk.h lines 196-199): the branchless
`(a > b) - (a < b)` comparison of packed offsets. -/
def mp_coffs_cmp (a b : Nat) : Int :=
  (if a > b then 1 else 0) - (if a < b then 1 else 0)

/-- Walk loop of `rb_tree_find` (mp_matrix.c lines 179-183): descend
from `node`, pushing each visited node and the direction taken onto the
stack, stopping on key equality or null.  Returns the result and the
final `pos`/`stack`/`sides`.  Traversal is fuel-bounded at 64 (the C
itself would overrun its 32-slot stack well before that). -/
def rb_tree_find_go (h : Nat → mp_chunk_s) (off : Nat) :
    Option Nat → Int → (Int → Nat) → (Int → Nat) → Nat →
    Option Nat × Int × (Int → Nat) × (Int → Nat)
  | _, pos, stk, sds, 0 => (none, pos, stk, sds)
  | none, pos, stk, sds, _ + 1 => (none, pos, stk, sds)
  | some n, pos, stk, sds, fuel + 1 =>
    if mp_coffs_cmp (h n).opos off = 0 then (some n, pos, stk, sds)
    else
      let pos1 := pos + 1
      let stk1 := Function.update stk pos1 n
      let dir : Nat := if mp_coffs_cmp (h n).opos off < 0 then 1 else 0
      let sds1 := Function.update sds pos1 dir
      rb_tree_find_go h off ((h n).sides dir) pos1 stk1 sds1 fuel

/-- Cache test of `rb_tree_find` (mp_matrix.c line 173): the cached node
is non-null and the cached offset compares equal to the query. -/
def rb_cache_hit (s : mp_tree_s) (off : Nat) : Bool :=
  match s.find with
  | some _ => mp_coffs_cmp s.offset off == 0
  | none => false

/-- Cache test of `rb_tree_insert`/`rb_tree_remove` (mp_matrix.c lines
193-196 and 219-221): the cached node is non-null and ITS offset field
compares equal to the argument chunk's offset. -/
def rb_node_hit (s : mp_tree_s) (off : Nat) : Bool :=
  match s.find with
  | some n => mp_coffs_cmp (s.heap n).opos off == 0
  | none => false

/-- Model of `rb_tree_find` (mp_matrix.c lines 171-186): serve from the
cache when `tree->find` is non-null and the cached offset matches,
otherwise walk from the root (resetting `pos` to -1 and storing the
queried offset), cache and return the outcome. -/
def rb_tree_find (s : mp_tree_s) (off : Nat) : Option Nat × mp_tree_s :=
  if rb_cache_hit s off then (s.find, s)
  else
    let r := rb_tree_find_go s.heap off s.root (-1) s.stack s.sides 64
    (r.1, { s with find := r.1, offset := off,
                   pos := r.2.1, stack := r.2.2.1, sides := r.2.2.2 })

/-- Cache-free root-to-leaf walk with the same descent rule as
`rb_tree_find_go` — the cold lookup that claim C5 compares the cached
`find` against. -/
def rb_cold_find (h : Nat → mp_chunk_s) (off : Nat) : Option Nat → Nat → Option Nat
  | _, 0 => none
  | none, _ + 1 => none
  | some n, fuel + 1 =>
    if mp_coffs_cmp (h n).opos off = 0 then some n
    else
      rb_cold_find h off
        ((h n).sides (if mp_coffs_cmp (h n).opos off < 0 then 1 else 0)) fuel

/-- Cold lookup on a tree state. -/
def coldFind (s : mp_tree_s) (off : Nat) : Option Nat :=
  rb_cold_find s.heap off s.root 64

/-- Heap update helper: set one field-modified record at id `n`. -/
def hset (h : Nat → mp_chunk_s) (n : Nat) (c : mp_chunk_s) : Nat → mp_chunk_s :=
  Function.update h n c

/-- Heap update helper: set child `side` of node `n` to `v`. -/
def hside (h : Nat → mp_chunk_s) (n : Nat) (side : Nat) (v : Option Nat) :
    Nat → mp_chunk_s :=
  hset h n { h n with sides := Function.update (h n).sides side v }

/-- Heap update helper: set the colour of node `n`. -/
def hcolor (h : Nat → mp_chunk_s) (n : Nat) (c : Nat) : Nat → mp_chunk_s :=
  hset h n { h n with color := c }

/-- Colour test used all over the fix-up loops: a non-null red node
(`y && y->color == MP_RED`). -/
def rb_red_opt (h : Nat → mp_chunk_s) : Option Nat → Bool
  | some n => (h n).color == MP_RED
  | none => false

/-- Colour test of the deletion fix-up: null or black
(`!s || s->color == MP_BLACK`). -/
def rb_black_opt (h : Nat → mp_chunk_s) : Option Nat → Bool
  | some n => (h n).color == MP_BLACK
  | none => true

/-- Red-uncle case of the insert rebalance loop (mp_matrix.c lines
66-72): parent and uncle turn black, the grandparent red. -/
def rb_ins_recolor (h : Nat → mp_chunk_s) (x yn g : Nat) : Nat → mp_chunk_s :=
  hcolor (hcolor (hcolor h x MP_BLACK) yn MP_BLACK) g MP_RED

/-- Zig-zag rotation of the insert rebalance loop (mp_matrix.c lines
74-79): `y_ = x_->sides[side^1]; x_->sides[side^1] = y_->sides[side];
y_->sides[side] = x_; x_ = g_->sides[side] = y_`.  Returns the new heap
and the new `x_`. -/
def rb_ins_zigzag (h : Nat → mp_chunk_s) (side g x : Nat) :
    (Nat → mp_chunk_s) × Nat :=
  let yn := ((h x).sides (1 - side)).getD 0
  let ha := hside h x (1 - side) ((h yn).sides side)
  let hb := hside ha yn side (some x)
  let hc := hside hb g side (some yn)
  (hc, yn)

/-- Straight rotation of the insert rebalance loop (mp_matrix.c lines
81-84): recolour grandparent red and `x_` black, then rotate `x_` above
the grandparent. -/
def rb_ins_rotate (h : Nat → mp_chunk_s) (side g x1 : Nat) : Nat → mp_chunk_s :=
  let h5 := hcolor h g MP_RED
  let h6 := hcolor h5 x1 MP_BLACK
  let h7 := hside h6 g side ((h6 x1).sides (1 - side))
  hside h7 x1 (1 - side) (some g)

/-- Rebalance loop of `rb_tree_insert_optimize` (mp_matrix.c lines
58-89), without the final root blackening.  One recursion step is one
iteration of `while (--tree->pos >= 0)`; the red-uncle case performs
the loop body's extra `--tree->pos`, so the next iteration starts two
levels higher.  The rotation cases relink the result into the root or
the next stack entry (lines 86-87) and end the loop. -/
def rb_tree_insert_optimize_go (s : mp_tree_s) : Nat → mp_tree_s
  | 0 => s
  | fuel + 1 =>
    let pos1 := s.pos - 1
    if pos1 < 0 then { s with pos := pos1 }
    else
      let side := s.sides pos1
      let g := s.stack pos1
      let y := (s.heap g).sides (1 - side)
      let x := s.stack (pos1 + 1)
      if (s.heap x).color = MP_BLACK then { s with pos := pos1 }
      else
        if rb_red_opt s.heap y then
          rb_tree_insert_optimize_go
            { s with heap := rb_ins_recolor s.heap x (y.getD 0) g, pos := pos1 - 1 } fuel
        else
          let zz := if side = 1 - s.sides (pos1 + 1) then rb_ins_zigzag s.heap side g x
                    else (s.heap, x)
          let h8 := rb_ins_rotate zz.1 side g zz.2
          if pos1 = 0 then { s with heap := h8, pos := pos1, root := some zz.2 }
          else
            let par := s.stack (pos1 - 1)
            { s with heap := hside h8 par (s.sides (pos1 - 1)) (some zz.2), pos := pos1 }

/-- Model of `rb_tree_insert_optimize` (mp_matrix.c lines 56-92): run
the rebalance loop, then force the root black when the tree is
non-empty. -/
def rb_tree_insert_optimize (s : mp_tree_s) : mp_tree_s :=
  let s1 := rb_tree_insert_optimize_go s 64
  match s1.root with
  | none => s1
  | some r => { s1 with heap := hcolor s1.heap r MP_BLACK }

/-- Model of `rb_tree_insert` (mp_matrix.c lines 191-210).  The inserted
chunk is a fresh descriptor from the pool, modelled by the allocation
counter; its offset field is `off`.  A cache hit on the same offset, or
a successful find, makes the insert a no-op; otherwise the cached offset
is set to the `UINT64_MAX` sentinel, the chunk is attached red with
null children at the recorded stack position, and the tree is
rebalanced. -/
def rb_tree_insert (s : mp_tree_s) (off : Nat) : mp_tree_s :=
  if rb_node_hit s off then s
  else
    let fr := rb_tree_find s off
    match fr.1 with
    | some _ => fr.2
    | none =>
      let s1 := fr.2
      let id := s1.alloc
      let h1 := hset s1.heap id { sides := fun _ => none, color := MP_RED, opos := off }
      let s2 := { s1 with heap := h1, alloc := id + 1, offset := UINT64_MAX }
      let s3 :=
        if s2.pos = -1 then { s2 with root := some id }
        else { s2 with heap := hside h1 (s2.stack s2.pos) (s2.sides s2.pos) (some id) }
      rb_tree_insert_optimize s3

/-- Red-sibling case of the deletion fix-up (mp_matrix.c lines 109-123):
recolour, rotate the sibling above the parent (linking it into the root
or the next stack slot), and push the parent one level deeper on the
stack. -/
def rb_rem_redsib (s : mp_tree_s) (side p sb : Nat) : mp_tree_s :=
  let h1 := hcolor s.heap sb MP_BLACK
  let h2 := hcolor h1 p MP_RED
  let s1a :=
    if s.pos = 0 then { s with heap := h2, root := some sb }
    else
      let par := s.stack (s.pos - 1)
      { s with heap := hside h2 par (s.sides (s.pos - 1)) (some sb) }
  let h3 := hside s1a.heap p (1 - side) ((s1a.heap sb).sides side)
  let h4 := hside h3 sb side (some p)
  let stk1 := Function.update s1a.stack s.pos sb
  let sds1 := Function.update s1a.sides (s.pos + 1) side
  let stk2 := Function.update stk1 (s.pos + 1) p
  { s1a with heap := h4, stack := stk2, sides := sds1, pos := s.pos + 1 }

/-- Near-nephew rotation of the deletion fix-up (mp_matrix.c lines
135-144): when the far nephew is black, the near nephew turns black,
the sibling red, and the near nephew rotates above the sibling.
Returns the new heap and the new sibling. -/
def rb_rem_nearrot (h : Nat → mp_chunk_s) (side p sb : Nat) :
    (Nat → mp_chunk_s) × Nat :=
  let yn := ((h sb).sides side).getD 0
  let ha := hcolor h yn MP_BLACK
  let hb := hcolor ha sb MP_RED
  let hc := hside hb sb side ((hb yn).sides (1 - side))
  let hd := hside hc yn (1 - side) (some sb)
  let he := hside hd p (1 - side) (some yn)
  (he, yn)

/-- Final rotation of the deletion fix-up (mp_matrix.c lines 146-156):
the sibling takes the parent's colour, the parent turns black, the far
nephew black, and the sibling rotates above the parent (linked into the
root or the next stack slot). -/
def rb_rem_finalrot (s : mp_tree_s) (side p sb1 : Nat) : mp_tree_s :=
  let h6 := hcolor s.heap sb1 (s.heap p).color
  let h7 := hcolor h6 p MP_BLACK
  let h8 :=
    match (h7 sb1).sides (1 - side) with
    | some c => hcolor h7 c MP_BLACK
    | none => h7
  let s2 :=
    if s.pos = 0 then { s with heap := h8, root := some sb1 }
    else
      let par := s.stack (s.pos - 1)
      { s with heap := hside h8 par (s.sides (s.pos - 1)) (some sb1) }
  let h9 := hside s2.heap p (1 - side) ((s2.heap sb1).sides side)
  let hA := hside h9 sb1 side (some p)
  { s2 with heap := hA }

/-- Deletion fix-up loop of `rb_tree_remove_optimize` (mp_matrix.c lines
99-157), transcribed case by case: a red child of the parent on the
deficient side absorbs the double black (lines 104-107); a red sibling
is rotated down first (lines 109-124); a null sibling ends the loop
(line 126); both-black nephews recolour and move up (lines 128-133); a
black far nephew triggers the near rotation; the final rotation ends
the loop. -/
def rb_tree_remove_optimize_go (s : mp_tree_s) : Nat → mp_tree_s
  | 0 => s
  | fuel + 1 =>
    if s.pos < 0 then s
    else
      let side := s.sides s.pos
      let p := s.stack s.pos
      if rb_red_opt s.heap ((s.heap p).sides side) then
        { s with heap := hcolor s.heap (((s.heap p).sides side).getD 0) MP_BLACK }
      else
        let sib0 := (s.heap p).sides (1 - side)
        let s1 := if rb_red_opt s.heap sib0 then rb_rem_redsib s side p (sib0.getD 0)
                  else s
        match (s1.heap p).sides (1 - side) with
        | none => s1
        | some sb =>
          if rb_black_opt s1.heap ((s1.heap sb).sides 0) &&
              rb_black_opt s1.heap ((s1.heap sb).sides 1) then
            rb_tree_remove_optimize_go
              { s1 with heap := hcolor s1.heap sb MP_RED, pos := s1.pos - 1 } fuel
          else
            let nr := cond (rb_black_opt s1.heap ((s1.heap sb).sides (1 - side)))
              (rb_rem_nearrot s1.heap side p sb) (s1.heap, sb)
            rb_rem_finalrot { s1 with heap := nr.1 } side p nr.2

/-- Model of `rb_tree_remove_optimize` (mp_matrix.c lines 97-158). -/
def rb_tree_remove_optimize (s : mp_tree_s) : mp_tree_s :=
  rb_tree_remove_optimize_go s 64

/-- Right-spine descent of the two-children case of `rb_tree_remove`
(mp_matrix.c lines 237-241): find the in-order predecessor, pushing the
intermediate nodes with direction 1. -/
def rb_tree_remove_desc (h : Nat → mp_chunk_s) :
    Nat → Int → (Int → Nat) → (Int → Nat) → Nat →
    Nat × Int × (Int → Nat) × (Int → Nat)
  | t, pos, stk, sds, 0 => (t, pos, stk, sds)
  | t, pos, stk, sds, fuel + 1 =>
    match (h t).sides 1 with
    | none => (t, pos, stk, sds)
    | some t1 =>
      rb_tree_remove_desc h t1 (pos + 1) (Function.update stk (pos + 1) t)
        (Function.update sds (pos + 1) 1) fuel

/-- Two-children case of `rb_tree_remove` (mp_matrix.c lines 230-258):
locate the in-order predecessor `target`, splice it into the removed
node's position (updating root or the recorded parent slot and the
stack entry), swap the colours, move the removed node's right subtree
to `target`, clear the removed node's right link, and swap the two left
links (`tmp` sequence of lines 255-257). -/
def rb_rem_twochild (s1 : mp_tree_s) (node : Nat) : mp_tree_s :=
  let target0 := ((s1.heap node).sides 0).getD 0
  let posC := s1.pos
  let pos2 := s1.pos + 1
  let stk2 := Function.update s1.stack pos2 node
  let sds2 := Function.update s1.sides pos2 0
  let d := rb_tree_remove_desc s1.heap target0 pos2 stk2 sds2 64
  let target := d.1
  let s2a := { s1 with pos := d.2.1, stack := d.2.2.1, sides := d.2.2.2 }
  let s2b :=
    if posC = -1 then { s2a with root := some target }
    else
      let par := s2a.stack posC
      { s2a with heap := hside s2a.heap par (s2a.sides posC) (some target) }
  let s2c := { s2b with stack := Function.update s2b.stack pos2 target }
  let cN := (s2c.heap node).color
  let cT := (s2c.heap target).color
  let h1 := hcolor s2c.heap target cN
  let h2 := hcolor h1 node cT
  let h3 := hside h2 target 1 ((h2 node).sides 1)
  let h4 := hside h3 node 1 none
  let tmp := (h4 node).sides 0
  let h5 := hside h4 node 0 ((h4 target).sides 0)
  let h6 := hside h5 target 0 tmp
  { s2c with heap := h6 }

/-- Model of `rb_tree_remove` (mp_matrix.c lines 215-266), transcribed
literally.  NOTE: the local `side` is captured from
`tree->sides[tree->pos]` BEFORE the two-children block pushes further
entries onto the stack (`const uint32_t side = ...` at line 227), and
the final unlink `tree->stack[tree->pos]->sides[side] = child` at line
262 uses this stale value even when `tree->pos` has moved.  When the
removed node is the root, `side` reads `tree->sides[-1]` — junk. -/
def rb_tree_remove (s : mp_tree_s) (off : Nat) : mp_tree_s :=
  let fr := if rb_node_hit s off then (s.find, s) else rb_tree_find s off
  match fr.1 with
  | none => fr.2
  | some node =>
    let s1 := { fr.2 with offset := UINT64_MAX }
    let side := s1.sides s1.pos
    let s2 :=
      if ((s1.heap node).sides 0).isSome && ((s1.heap node).sides 1).isSome then
        rb_rem_twochild s1 node
      else s1
    let child := match (s2.heap node).sides 0 with
      | some c => some c
      | none => (s2.heap node).sides 1
    let s3 :=
      if s2.pos = -1 then { s2 with root := child }
      else { s2 with heap := hside s2.heap (s2.stack s2.pos) side child }
    if (s3.heap node).color = MP_BLACK then rb_tree_remove_optimize s3 else s3

/-- One operation on the matrix index: a lookup, an insert of a fresh
chunk with the given offset, or a removal of the chunk with the given
offset. -/
inductive MOp where
  | find (off : Nat)
  | ins (off : Nat)
  | rem (off : Nat)

/-- Junk chunk record behind unallocated ids. -/
def blankChunk : mp_chunk_s :=
  { sides := fun _ => none, color := 0, opos := 0 }

/-- Tree state right after `mp_tree_init` / `mp_matrix_init`
(mp_matrix.c lines 18-23): null root, null cached node, sentinel cached
offset.  The stack, its cursor and the heap are uninitialized in the C;
the model fixes them to junk. -/
def initTree : mp_tree_s :=
  { root := none, find := none, offset := UINT64_MAX, pos := -1,
    stack := fun _ => 0, sides := fun _ => 0, heap := fun _ => blankChunk, alloc := 0 }

/-- Apply one matrix-index operation. -/
def mApply (s : mp_tree_s) : MOp → mp_tree_s
  | .find off => (rb_tree_find s off).2
  | .ins off => rb_tree_insert s off
  | .rem off => rb_tree_remove s off

/-- Run a sequence of matrix-index operations from the initial state. -/
def runMOps (ops : List MOp) : mp_tree_s :=
  ops.foldl mApply initTree

/-- Fuel-bounded black-height computation over the chunk heap: `none`
when a red node has a red child, when the two sides disagree on black
height, or when the structure is deeper than the fuel allows (in
particular when it is cyclic and hence not a tree at all). -/
def rbBlackHeight (h : Nat → mp_chunk_s) : Option Nat → Nat → Option Nat
  | none, _ => some 1
  | some _, 0 => none
  | some n, fuel + 1 =>
    match rbBlackHeight h ((h n).sides 0) fuel, rbBlackHeight h ((h n).sides 1) fuel with
    | some lh, some rh =>
      if lh ≠ rh then none
      else
        let redRed : Bool :=
          (h n).color == MP_RED &&
            (match (h n).sides 0 with
              | some c => (h c).color == MP_RED
              | none => false) ||
          (h n).color == MP_RED &&
            (match (h n).sides 1 with
              | some c => (h c).color == MP_RED
              | none => false)
        if redRed then none
        else some (lh + (if (h n).color = MP_BLACK then 1 else 0))
    | _, _ => none

/-- Executable red/black validity of a tree state: black (or absent)
root, no red node with a red child, equal black count on every
root-to-leaf path. -/
def rbValidB (s : mp_tree_s) : Bool :=
  match s.root with
  | none => true
  | some r => (s.heap r).color == MP_BLACK && (rbBlackHeight s.heap s.root 64).isSome

/-- In-order traversal loop of `mp_tree_free` (mp_matrix.c lines 28-43):
descend left pushing ancestors, pop, return the popped chunk to the
pool, continue with its right child.  Returns the chunk ids in the
order they are handed to `mp_pool_ret`, together with the final
contents of the (scribbled-over) stack array; `none` on fuel
exhaustion. -/
def mp_tree_free_go (h : Nat → mp_chunk_s) :
    Option Nat → Int → (Int → Nat) → Nat → Option (List Nat × (Int → Nat))
  | _, _, _, 0 => none
  | some n, pos, stk, fuel + 1 =>
    mp_tree_free_go h ((h n).sides 0) (pos + 1) (Function.update stk (pos + 1) n) fuel
  | none, pos, stk, fuel + 1 =>
    if pos = -1 then some ([], stk)
    else
      let n := stk pos
      match mp_tree_free_go h ((h n).sides 1) (pos - 1) stk fuel with
      | none => none
      | some (l, st) => some (n :: l, st)

/-- Model of `mp_tree_free` (mp_matrix.c lines 28-43).  The loop cursor
`pos` is a local variable; of the `mp_tree` fields only the `stack`
array is written.  Returns the post-call tree state and the list of
chunk ids returned to the pool. -/
def mp_tree_free (s : mp_tree_s) (fuel : Nat) : Option (mp_tree_s × List Nat) :=
  match mp_tree_free_go s.heap s.root (-1) s.stack fuel with
  | none => none
  | some (l, st) => some ({ s with stack := st }, l)

/-- Binary tree of chunk ids used to state which finite tree a heap
encodes. -/
inductive EncT where
  | leaf
  | nd (id : Nat) (l r : EncT)

/-- Heap `h` encodes tree `T` below pointer `r`. -/
inductive Encodes (h : Nat → mp_chunk_s) : Option Nat → EncT → Prop where
  | leaf : Encodes h none .leaf
  | nd (n : Nat) (L R : EncT) :
      Encodes h ((h n).sides 0) L → Encodes h ((h n).sides 1) R →
      Encodes h (some n) (.nd n L R)

/-- In-order list of the ids of an `EncT`. -/
def inorderIds : EncT → List Nat
  | .leaf => []
  | .nd n l r => inorderIds l ++ n :: inorderIds r

/-- Node count of an `EncT`. -/
def sizeT : EncT → Nat
  | .leaf => 0
  | .nd _ l r => 1 + sizeT l + sizeT r

/- ══════════════════════════════════════════════════════════════════════
   Concrete states used by witnesses and counterexamples
   ══════════════════════════════════════════════════════════════════════ -/

/-- Page ring right after `mp_page_init` (free empty, arrays junk). -/
def ringDemoStart : mp_page_ring :=
  { next := fun _ => 0, prev := fun _ => 0, free := UINT16_MAX }

/-- A short valid ring history: insert positions 3 and 7, then remove 3. -/
def ringDemoRun : Option (mp_page_ring × List Nat) :=
  runRing (ringDemoStart, []) [RingOp.ret 3, RingOp.ret 7, RingOp.get 3]

/-- Final state of the short ring history. -/
def ringDemoEnd : mp_page_ring × List Nat :=
  ringDemoRun.getD (ringDemoStart, [])

/-- Cache soundness invariant of the matrix index: whenever the cached
offset is not the `UINT64_MAX` sentinel, the cached node is exactly what
the cold walk finds for it. -/
def TreeCacheInv (s : mp_tree_s) : Prop :=
  s.offset ≠ UINT64_MAX → coldFind s s.offset = s.find

/-- Pending work encoded on `mp_tree_free`'s stack: entry `i` of the
list of pairs sits at stack index `pos - i`, and its second component is
the tree hanging off that node's right child. -/
def StackEnc (h : Nat → mp_chunk_s) (stk : Int → Nat) :
    Int → List (Nat × EncT) → Prop
  | pos, [] => pos = -1
  | pos, (i, R) :: K => 0 ≤ pos ∧ stk pos = i ∧
      Encodes h ((h i).sides 1) R ∧ StackEnc h stk (pos - 1) K

/-- Ids contributed by the pending stack entries, in emission order. -/
def flattenK : List (Nat × EncT) → List Nat
  | [] => []
  | (i, R) :: K => i :: inorderIds R ++ flattenK K

/-- Fuel needed by `mp_tree_free_go` for the pending stack entries. -/
def costK : List (Nat × EncT) → Nat
  | [] => 0
  | (_, R) :: K => 2 * sizeT R + 1 + costK K

/-- Concrete one-node tree state used by the `mp_tree_free` witness:
root and cache point at chunk id 5, cached offset 77. -/
def freeDemo : mp_tree_s :=
  { root := some 5, find := some 5, offset := 77, pos := -1,
    stack := fun _ => 0, sides := fun _ => 0,
    heap := fun _ => blankChunk, alloc := 0 }

/- ══════════════════════════════════════════════════════════════════════
   Theorems.  First the helper lemmas for the page free-ring (claim C8).
   ══════════════════════════════════════════════════════════════════════ -/

/-- Chain steps only look at `next` of non-final and `prev` of non-initial
elements, so they survive updates elsewhere. -/
theorem ringChain_congr {p p' : mp_page_ring} :
    ∀ {L : List Nat}, List.Chain' (ringStep p) L →
      (∀ a ∈ L.dropLast, p'.next a = p.next a) →
      (∀ b ∈ L.tail, p'.prev b = p.prev b) →
      List.Chain' (ringStep p') L
  | [], _, _, _ => List.chain'_nil
  | [_], _, _, _ => List.chain'_singleton _
  | a :: b :: l, hc, hn, hp => by
    rw [List.chain'_cons] at hc ⊢
    refine ⟨⟨?_, ?_⟩, ?_⟩
    · rw [hn a (by simp [List.dropLast])]
      exact hc.1.1
    · rw [hp b (by simp)]
      exact hc.1.2
    · refine ringChain_congr hc.2 ?_ ?_
      · intro x hx
        refine hn x ?_
        simp only [List.dropLast]
        exact List.mem_cons_of_mem a hx
      · intro x hx
        simp only [List.tail_cons] at hx ⊢
        exact hp x (List.mem_cons_of_mem b hx)

/-- Every non-final chain element has a chain successor. -/
theorem chain'_succ {R : Nat → Nat → Prop} :
    ∀ {L : List Nat}, List.Chain' R L → ∀ i ∈ L.dropLast, ∃ j ∈ L.tail, R i j
  | [], _, i, hi => by simp at hi
  | [_], _, i, hi => by simp [List.dropLast] at hi
  | a :: b :: l, hc, i, hi => by
    rw [List.chain'_cons] at hc
    simp only [List.dropLast] at hi
    rcases List.mem_cons.mp hi with rfl | hi'
    · exact ⟨b, by simp, hc.1⟩
    · obtain ⟨j, hj, hR⟩ := chain'_succ hc.2 i hi'
      refine ⟨j, ?_, hR⟩
      simp only [List.tail_cons] at hj ⊢
      exact List.mem_cons_of_mem b hj

/-- Every non-initial chain element has a chain predecessor. -/
theorem chain'_pred {R : Nat → Nat → Prop} :
    ∀ {L : List Nat}, List.Chain' R L → ∀ i ∈ L.tail, ∃ j ∈ L, R j i
  | [], _, i, hi => by simp at hi
  | [_], _, i, hi => by simp at hi
  | a :: b :: l, hc, i, hi => by
    rw [List.chain'_cons] at hc
    simp only [List.tail_cons] at hi
    rcases List.mem_cons.mp hi with rfl | hi'
    · exact ⟨a, by simp, hc.1⟩
    · obtain ⟨j, hj, hR⟩ := chain'_pred hc.2 i (by simpa using hi')
      exact ⟨j, List.mem_cons_of_mem a hj, hR⟩

/-- Successor pairing on a represented ring: every member has a member
successor `j` with `next i = j` and `prev j = i`. -/
theorem ringRep_succ {p : mp_page_ring} {h : Nat} {t : List Nat}
    (hrep : ringRep p (h :: t)) : ∀ i ∈ h :: t, ∃ j ∈ h :: t, ringStep p i j := by
  obtain ⟨-, -, -, hchain, hwrap⟩ := hrep
  intro i hi
  have hsplit := (List.dropLast_append_getLast (l := h :: t) (by simp)).symm
  rcases List.mem_append.mp (hsplit ▸ hi) with hmem | hlast
  · obtain ⟨j, hj, hR⟩ := chain'_succ hchain i hmem
    exact ⟨j, List.mem_of_mem_tail hj, hR⟩
  · have : i = (h :: t).getLast (by simp) := by simpa using hlast
    subst this
    refine ⟨h, by simp, ?_⟩
    exact hwrap _ (List.getLast?_eq_getLast_of_ne_nil (by simp))

/-- Predecessor pairing on a represented ring. -/
theorem ringRep_pred {p : mp_page_ring} {h : Nat} {t : List Nat}
    (hrep : ringRep p (h :: t)) : ∀ i ∈ h :: t, ∃ j ∈ h :: t, ringStep p j i := by
  obtain ⟨-, -, -, hchain, hwrap⟩ := hrep
  intro i hi
  rcases List.mem_cons.mp hi with rfl | hmem
  · refine ⟨(i :: t).getLast (by simp), List.getLast_mem _, ?_⟩
    exact hwrap _ (List.getLast?_eq_getLast_of_ne_nil (l := i :: t) (by simp))
  · obtain ⟨j, hj, hR⟩ := chain'_pred hchain i (by simpa using hmem)
    exact ⟨j, hj, hR⟩

/-- Double consistency of the intrusive links on a represented ring. -/
theorem ringRep_consistent {p : mp_page_ring} {L : List Nat}
    (hrep : ringRep p L) : ∀ i ∈ L, p.next (p.prev i) = i ∧ p.prev (p.next i) = i := by
  intro i hi
  match L, hrep, hi with
  | h :: t, hrep, hi =>
    obtain ⟨j, _, hj1, hj2⟩ := ringRep_succ hrep i hi
    obtain ⟨k, _, hk1, hk2⟩ := ringRep_pred hrep i hi
    constructor
    · rw [hk2, hk1]
    · rw [hj1, hj2]

/-- The last element of a duplicate-free list does not occur before the
end. -/
theorem getLast_not_mem_dropLast {L : List Nat} (hL : L ≠ []) (hnd : L.Nodup) :
    L.getLast hL ∉ L.dropLast := by
  intro hmem
  have hsplit := List.dropLast_append_getLast hL
  rw [← hsplit] at hnd
  rcases List.nodup_append.mp hnd with ⟨-, -, hdisj⟩
  exact hdisj hmem (by simp)

/-- Inserting a fresh valid position into an empty ring
(`mp_page_ret_pos`, first branch) yields the singleton ring. -/
theorem ringRep_ret_empty {p : mp_page_ring} {pos : Nat} (hv : pos < PAGE_SIZE)
    (hrep : ringRep p []) : ringRep (mp_page_ret_pos p pos) [pos] := by
  obtain ⟨-, -, hfree⟩ := hrep
  have hne : pos ≠ UINT16_MAX := by unfold PAGE_SIZE at hv; unfold UINT16_MAX; omega
  unfold mp_page_ret_pos
  rw [if_pos hfree]
  refine ⟨by simp, by simpa using hv, rfl, List.chain'_singleton _, ?_⟩
  intro x hx
  simp only [List.getLast?_singleton, Option.mem_some_iff] at hx
  subst hx
  exact ⟨Function.update_same .., Function.update_same ..⟩

/-- Removing the only member of a singleton ring (`mp_page_get_pos`,
single-element branch) empties the ring. -/
theorem ringRep_get_single {p : mp_page_ring} {pos : Nat}
    (hrep : ringRep p [pos]) : ringRep (mp_page_get_pos p pos) [] := by
  have hself : p.next pos = pos := by
    obtain ⟨-, -, -, -, hwrap⟩ := hrep
    exact (hwrap pos (by simp [List.getLast?_singleton])).1
  unfold mp_page_get_pos
  rw [if_pos hself]
  exact ⟨by simp, by simp, rfl⟩

/-- Inserting a fresh valid position into a non-empty ring
(`mp_page_ret_pos`, second branch) appends it at the ring's tail. -/
theorem ringRep_ret_append {p : mp_page_ring} {h : Nat} {t : List Nat} {pos : Nat}
    (hrep : ringRep p (h :: t)) (hpos : pos ∉ h :: t) (hv : pos < PAGE_SIZE) :
    ringRep (mp_page_ret_pos p pos) ((h :: t) ++ [pos]) := by
  obtain ⟨hnd, hbound, hfree, hchain, hwrap⟩ := hrep
  have hLne : (h :: t) ≠ [] := by simp
  set last := (h :: t).getLast hLne with hlastdef
  have hlast? : (h :: t).getLast? = some last :=
    List.getLast?_eq_getLast_of_ne_nil (l := h :: t) (by simp)
  have hlastmem : last ∈ h :: t := List.getLast_mem _
  have hwl : ringStep p last h := hwrap last hlast?
  have hhne : p.free ≠ UINT16_MAX := by
    rw [hfree]
    have := hbound h (by simp)
    unfold PAGE_SIZE at this; unfold UINT16_MAX; omega
  have htail : p.prev p.free = last := by rw [hfree]; exact hwl.2
  have hposh : pos ≠ h := fun e => hpos (e ▸ List.mem_cons_self _ _)
  have hposlast : pos ≠ last := fun e => hpos (e ▸ hlastmem)
  have hlastdrop : last ∉ (h :: t).dropLast := getLast_not_mem_dropLast hLne hnd
  unfold mp_page_ret_pos
  rw [if_neg hhne, htail, hfree]
  set p' : mp_page_ring :=
    { next := Function.update (Function.update p.next pos h) last pos,
      prev := Function.update (Function.update p.prev pos last) h pos,
      free := h } with hp'
  show ringRep p' ((h :: t) ++ [pos])
  have hnext' : ∀ a, a ≠ last → a ≠ pos → p'.next a = p.next a := by
    intro a h1 h2
    show Function.update (Function.update p.next pos h) last pos a = _
    rw [Function.update_noteq h1, Function.update_noteq h2]
  have hprev' : ∀ b, b ≠ h → b ≠ pos → p'.prev b = p.prev b := by
    intro b h1 h2
    show Function.update (Function.update p.prev pos last) h pos b = _
    rw [Function.update_noteq h1, Function.update_noteq h2]
  have hstep_last_pos : ringStep p' last pos := by
    constructor
    · show Function.update (Function.update p.next pos h) last pos last = pos
      rw [Function.update_same]
    · show Function.update (Function.update p.prev pos last) h pos pos = last
      rw [Function.update_noteq hposh, Function.update_same]
  have hstep_pos_h : ringStep p' pos h := by
    constructor
    · show Function.update (Function.update p.next pos h) last pos pos = h
      rw [Function.update_noteq hposlast, Function.update_same]
    · show Function.update (Function.update p.prev pos last) h pos h = pos
      rw [Function.update_same]
  have hchain' : List.Chain' (ringStep p') (h :: t) := by
    refine ringChain_congr hchain ?_ ?_
    · intro a ha
      refine hnext' a ?_ ?_
      · intro e; exact hlastdrop (e ▸ ha)
      · intro e; exact hpos (e ▸ List.mem_of_mem_dropLast ha)
    · intro b hb
      refine hprev' b ?_ ?_
      · intro e
        subst e
        exact (List.nodup_cons.mp hnd).1 (by simpa using hb)
      · intro e; exact hpos (e ▸ List.mem_of_mem_tail hb)
  refine ⟨?_, ?_, rfl, ?_, ?_⟩
  · simp only [List.nodup_append, List.nodup_singleton]
    exact ⟨hnd, by simp, by intro a ha hb; simp at hb; exact absurd (hb ▸ ha) hpos⟩
  · intro i hi
    rcases List.mem_append.mp hi with hi | hi
    · exact hbound i hi
    · simp at hi; subst hi; exact hv
  · refine List.Chain'.append hchain' (List.chain'_singleton _) ?_
    intro x hx y hy
    simp only [List.head?_cons, Option.mem_some_iff] at hy
    rw [hlast?] at hx
    simp only [Option.mem_some_iff] at hx
    subst hx; subst hy
    exact hstep_last_pos
  · intro x hx
    simp only [List.append_eq] at hx
    rw [show (h :: (t ++ [pos])).getLast? = some pos from by
          rw [← List.cons_append]; exact List.getLast?_concat _] at hx
    simp only [Option.mem_some_iff] at hx
    subst hx
    show ringStep p' pos h
    exact hstep_pos_h

/-- Removing the ring head of a ring with at least two members
(`mp_page_get_pos`, general branch with `free == pos`) advances the head
to its successor. -/
theorem ringRep_get_head {p : mp_page_ring} {pos c : Nat} {t' : List Nat}
    (hrep : ringRep p (pos :: c :: t')) :
    ringRep (mp_page_get_pos p pos) (c :: t') := by
  obtain ⟨hnd, hbound, hfree, hchain, hwrap⟩ := hrep
  have hstep1 : ringStep p pos c := (List.chain'_cons.mp hchain).1
  have hchain2 : List.Chain' (ringStep p) (c :: t') := (List.chain'_cons.mp hchain).2
  have hndt : (c :: t').Nodup := (List.nodup_cons.mp hnd).2
  have hposnot : pos ∉ c :: t' := (List.nodup_cons.mp hnd).1
  have hcne : c ≠ pos := fun e => hposnot (e ▸ List.mem_cons_self _ _)
  set lst := (c :: t').getLast (by simp) with hlstdef
  have hlstL : (pos :: c :: t').getLast (by simp) = lst := List.getLast_cons (by simp)
  have hwl : ringStep p lst pos := by
    have := hwrap ((pos :: c :: t').getLast (by simp))
      (List.getLast?_eq_getLast_of_ne_nil (l := pos :: c :: t') (by simp))
    rwa [hlstL] at this
  have hlstmem : lst ∈ c :: t' := List.getLast_mem _
  have hlstpos : lst ≠ pos := fun e => hposnot (e ▸ hlstmem)
  have hnp : p.next pos = c := hstep1.1
  have hnpne : p.next pos ≠ pos := by rw [hnp]; exact hcne
  have hpp : p.prev pos = lst := hwl.2
  unfold mp_page_get_pos
  rw [if_neg hnpne]
  show ringRep
    { next := Function.update p.next
        (Function.update p.prev (p.next pos) (p.prev pos) pos) (p.next pos),
      prev := Function.update p.prev (p.next pos) (p.prev pos),
      free := if p.free = pos
        then Function.update p.next
          (Function.update p.prev (p.next pos) (p.prev pos) pos) (p.next pos) pos
        else p.free } (c :: t')
  have hprev1pos : Function.update p.prev (p.next pos) (p.prev pos) pos = lst := by
    rw [Function.update_noteq (fun e => hnpne e.symm), hpp]
  rw [hprev1pos, hnp, hpp]
  have hfr : (if p.free = pos then Function.update p.next lst c pos else p.free) = c := by
    rw [if_pos hfree, Function.update_noteq hlstpos.symm, hnp]
  rw [hfr]
  set p' : mp_page_ring :=
    { next := Function.update p.next lst c,
      prev := Function.update p.prev c lst, free := c } with hp'
  show ringRep p' (c :: t')
  have hlstdrop : lst ∉ (c :: t').dropLast := getLast_not_mem_dropLast (by simp) hndt
  have hchain' : List.Chain' (ringStep p') (c :: t') := by
    refine ringChain_congr hchain2 ?_ ?_
    · intro a ha
      show Function.update p.next lst c a = p.next a
      exact Function.update_noteq (fun e => hlstdrop (by rw [← e]; exact ha)) _ _
    · intro b hb
      show Function.update p.prev c lst b = p.prev b
      refine Function.update_noteq (fun e => ?_) _ _
      exact (List.nodup_cons.mp hndt).1 (e ▸ (by simpa using hb))
  refine ⟨hndt, fun i hi => hbound i (List.mem_cons_of_mem _ hi), rfl, hchain', ?_⟩
  intro x hx
  rw [List.getLast?_eq_getLast_of_ne_nil (l := c :: t') (by simp)] at hx
  simp only [Option.mem_some_iff] at hx
  subst hx
  constructor
  · show Function.update p.next lst c lst = c
    rw [Function.update_same]
  · show Function.update p.prev c lst c = lst
    rw [Function.update_same]

/-- Removing a non-head member of the ring (`mp_page_get_pos`, general
branch with `free ≠ pos`) splices it out, keeping the head. -/
theorem ringRep_get_mid {p : mp_page_ring} {h pos : Nat} {t1 t2 : List Nat}
    (hrep : ringRep p ((h :: t1) ++ pos :: t2)) :
    ringRep (mp_page_get_pos p pos) ((h :: t1) ++ t2) := by
  obtain ⟨hnd, hbound, hfree, hchain, hwrap⟩ := hrep
  have hndL : ((h :: t1) ++ pos :: t2).Nodup := hnd
  obtain ⟨hndA, hndP, hdisj⟩ := List.nodup_append.mp hndL
  have hboundL : ∀ i ∈ (h :: t1) ++ pos :: t2, i < PAGE_SIZE := hbound
  have hchainL : List.Chain' (ringStep p) ((h :: t1) ++ pos :: t2) := hchain
  have hwrapL : ∀ x ∈ ((h :: t1) ++ pos :: t2).getLast?, ringStep p x h := hwrap
  obtain ⟨hcA, hcP, hlink⟩ := List.chain'_append.mp hchainL
  set a := (h :: t1).getLast (by simp) with hadef
  have ha? : (h :: t1).getLast? = some a :=
    List.getLast?_eq_getLast_of_ne_nil (l := h :: t1) (by simp)
  have hamem : a ∈ h :: t1 := List.getLast_mem _
  have hstep_a_pos : ringStep p a pos := hlink a ha? pos (by simp)
  have hposA : pos ∉ h :: t1 := fun hm => hdisj hm (by simp)
  have hpos_h : pos ≠ h := fun e => hposA (e ▸ List.mem_cons_self _ _)
  have hhP : h ∉ pos :: t2 := fun hm => hdisj (List.mem_cons_self _ _) hm
  have hapos : a ≠ pos := fun e => hposA (e ▸ hamem)
  have hfreepos : p.free ≠ pos := by
    rw [hfree]; exact fun e => hposA (e ▸ List.mem_cons_self _ _)
  have hpp : p.prev pos = a := hstep_a_pos.2
  have hadrop : a ∉ (h :: t1).dropLast := getLast_not_mem_dropLast (by simp) hndA
  rcases ht2 : t2 with _ | ⟨c, t2'⟩
  · -- pos was the ring's last member; its successor is the head
    subst ht2
    have hlastL : ((h :: t1) ++ [pos]).getLast? = some pos := List.getLast?_concat _
    have hstep_pos_h : ringStep p pos h := hwrapL pos hlastL
    have hnp : p.next pos = h := hstep_pos_h.1
    have hnpne : p.next pos ≠ pos := by rw [hnp]; exact fun e => hpos_h e.symm
    unfold mp_page_get_pos
    rw [if_neg hnpne]
    show ringRep
      { next := Function.update p.next
          (Function.update p.prev (p.next pos) (p.prev pos) pos) (p.next pos),
        prev := Function.update p.prev (p.next pos) (p.prev pos),
        free := if p.free = pos
          then Function.update p.next
            (Function.update p.prev (p.next pos) (p.prev pos) pos) (p.next pos) pos
          else p.free } ((h :: t1) ++ [])
    have hprev1pos : Function.update p.prev (p.next pos) (p.prev pos) pos = a := by
      rw [Function.update_noteq (fun e => hnpne e.symm), hpp]
    rw [hprev1pos, hnp, hpp, if_neg hfreepos, List.append_nil]
    set p' : mp_page_ring :=
      { next := Function.update p.next a h,
        prev := Function.update p.prev h a, free := p.free } with hp'
    show ringRep p' (h :: t1)
    have hchainA : List.Chain' (ringStep p') (h :: t1) := by
      refine ringChain_congr hcA ?_ ?_
      · intro x hx
        show Function.update p.next a h x = p.next x
        exact Function.update_noteq (fun (e : x = a) => hadrop (e ▸ hx)) _ _
      · intro x hx
        have hx' : x ∈ t1 := by simpa using hx
        show Function.update p.prev h a x = p.prev x
        refine Function.update_noteq (fun (e : x = h) => ?_) _ _
        exact (List.nodup_cons.mp hndA).1 (e ▸ hx')
    have hboundA : ∀ i ∈ h :: t1, i < PAGE_SIZE := by
      intro i hi
      exact hboundL i (List.mem_append_left _ hi)
    have hwrapA : ∀ x ∈ (h :: t1).getLast?, ringStep p' x h := by
      intro x hx
      rw [ha?] at hx
      simp only [Option.mem_some_iff] at hx
      subst hx
      constructor
      · show Function.update p.next a h a = h
        rw [Function.update_same]
      · show Function.update p.prev h a h = a
        rw [Function.update_same]
    exact ⟨hndA, hboundA, hfree, hchainA, hwrapA⟩
  · -- pos has a successor c inside the ring
    subst ht2
    have hstep_pos_c : ringStep p pos c := (List.chain'_cons.mp hcP).1
    have hcC : List.Chain' (ringStep p) (c :: t2') := (List.chain'_cons.mp hcP).2
    have hnp : p.next pos = c := hstep_pos_c.1
    have hposP : pos ∉ c :: t2' := (List.nodup_cons.mp hndP).1
    have hcpos : c ≠ pos := fun e => hposP (e ▸ List.mem_cons_self _ _)
    have hnpne : p.next pos ≠ pos := by rw [hnp]; exact hcpos
    have hcnotA : c ∉ h :: t1 := fun hm => hdisj hm (by simp)
    have hndC : (c :: t2').Nodup := (List.nodup_cons.mp hndP).2
    unfold mp_page_get_pos
    rw [if_neg hnpne]
    show ringRep
      { next := Function.update p.next
          (Function.update p.prev (p.next pos) (p.prev pos) pos) (p.next pos),
        prev := Function.update p.prev (p.next pos) (p.prev pos),
        free := if p.free = pos
          then Function.update p.next
            (Function.update p.prev (p.next pos) (p.prev pos) pos) (p.next pos) pos
          else p.free } ((h :: t1) ++ c :: t2')
    have hprev1pos : Function.update p.prev (p.next pos) (p.prev pos) pos = a := by
      rw [Function.update_noteq (fun e => hnpne e.symm), hpp]
    rw [hprev1pos, hnp, hpp, if_neg hfreepos]
    set p' : mp_page_ring :=
      { next := Function.update p.next a c,
        prev := Function.update p.prev c a, free := p.free } with hp'
    show ringRep p' ((h :: t1) ++ c :: t2')
    have hnext' : ∀ x, x ≠ a → p'.next x = p.next x := by
      intro x hx
      show Function.update p.next a c x = p.next x
      exact Function.update_noteq hx _ _
    have hprev' : ∀ x, x ≠ c → p'.prev x = p.prev x := by
      intro x hx
      show Function.update p.prev c a x = p.prev x
      exact Function.update_noteq hx _ _
    have hchainA' : List.Chain' (ringStep p') (h :: t1) := by
      refine ringChain_congr hcA ?_ ?_
      · intro x hx
        exact hnext' x (fun e => hadrop (e ▸ hx))
      · intro x hx
        have hx' : x ∈ t1 := by simpa using hx
        exact hprev' x (fun e => hcnotA (List.mem_cons_of_mem _ (e ▸ hx')))
    have hchainC' : List.Chain' (ringStep p') (c :: t2') := by
      refine ringChain_congr hcC ?_ ?_
      · intro x hx
        have hxm : x ∈ c :: t2' := List.mem_of_mem_dropLast hx
        exact hnext' x (fun e => hdisj hamem (List.mem_cons_of_mem _ (e ▸ hxm)))
      · intro x hx
        have hx' : x ∈ t2' := by simpa using hx
        exact hprev' x (fun e => (List.nodup_cons.mp hndC).1 (e ▸ hx'))
    have hnodupM : ((h :: t1) ++ c :: t2').Nodup := by
      refine List.nodup_append.mpr ⟨hndA, hndC, ?_⟩
      intro x hx hx2
      exact hdisj hx (List.mem_cons_of_mem _ hx2)
    have hboundM : ∀ i ∈ (h :: t1) ++ c :: t2', i < PAGE_SIZE := by
      intro i hi
      rcases List.mem_append.mp hi with hi | hi
      · exact hboundL i (List.mem_append_left _ hi)
      · exact hboundL i (List.mem_append_right _ (List.mem_cons_of_mem _ hi))
    have hchainM : List.Chain' (ringStep p') ((h :: t1) ++ c :: t2') := by
      refine List.chain'_append.mpr ⟨hchainA', hchainC', ?_⟩
      intro x hx y hy
      rw [ha?] at hx
      simp only [Option.mem_some_iff, List.head?_cons] at hx hy
      subst hx; subst hy
      constructor
      · show Function.update p.next a c a = c
        rw [Function.update_same]
      · show Function.update p.prev c a c = a
        rw [Function.update_same]
    have hwrapM : ∀ x ∈ ((h :: t1) ++ c :: t2').getLast?, ringStep p' x h := by
      intro x hx
      have hClast? : (c :: t2').getLast? = some ((c :: t2').getLast (by simp)) :=
        List.getLast?_eq_getLast_of_ne_nil (l := c :: t2') (by simp)
      set lst := (c :: t2').getLast (by simp) with hlstdef
      have hlmem : lst ∈ c :: t2' := List.getLast_mem _
      rw [List.getLast?_append_of_ne_nil _ (by simp), hClast?] at hx
      simp only [Option.mem_some_iff] at hx
      subst hx
      have hLlast? : ((h :: t1) ++ pos :: c :: t2').getLast? = some lst := by
        rw [List.getLast?_append_of_ne_nil _ (by simp)]
        rw [show (pos :: c :: t2').getLast? = (c :: t2').getLast? from rfl, hClast?]
      have hstep_lst_h : ringStep p lst h := hwrapL lst hLlast?
      constructor
      · rw [hnext' lst (fun e => hdisj hamem (List.mem_cons_of_mem _ (e ▸ hlmem)))]
        exact hstep_lst_h.1
      · rw [hprev' h (fun e => hhP (by rw [e]; exact List.mem_cons_of_mem _ (List.mem_cons_self _ _)))]
        exact hstep_lst_h.2
    exact ⟨hnodupM, hboundM, hfree, hchainM, hwrapM⟩

/-- One valid ring operation preserves the representation. -/
theorem ringRep_step {p : mp_page_ring} {L L' : List Nat} {op : RingOp}
    (hrep : ringRep p L) (hstep : ringModelStep L op = some L') :
    ringRep (ringApply p op) L' := by
  cases op with
  | get pos =>
    simp only [ringModelStep] at hstep
    split at hstep
    case isTrue hmem =>
      simp only [Option.some_inj] at hstep
      subst hstep
      show ringRep (mp_page_get_pos p pos) _
      match L, hrep, hmem with
      | h :: t, hrep, hmem =>
        rcases eq_or_ne pos h with rfl | hne
        · rw [if_pos (by simp)]
          match t, hrep with
          | [], hrep =>
            simpa using ringRep_get_single hrep
          | c :: t', hrep =>
            simpa using ringRep_get_head hrep
        · have hmem' : pos ∈ t := by
            rcases List.mem_cons.mp hmem with e | hm
            · exact absurd e hne
            · exact hm
          obtain ⟨t1, t2, rfl⟩ := List.append_of_mem hmem'
          have hposA : pos ∉ h :: t1 := by
            have hnd := hrep.1
            have hnd2 : ((h :: t1) ++ pos :: t2).Nodup := by
              rw [List.cons_append]
              simpa using hnd
            rcases List.nodup_append.mp hnd2 with ⟨-, hndP, hdisj⟩
            exact fun hm => hdisj hm (by simp)
          have herase : (h :: (t1 ++ pos :: t2)).erase pos = (h :: t1) ++ t2 := by
            rw [← List.cons_append, List.erase_append_right _ hposA,
              List.erase_cons_head]
          have hhead : ¬ (h :: (t1 ++ pos :: t2)).head? = some pos := by
            simp only [List.head?_cons, Option.some_inj]
            exact fun e => hne e.symm
          rw [if_neg hhead, herase]
          refine ringRep_get_mid ?_
          rw [List.cons_append]
          exact hrep
    case isFalse => exact absurd hstep (by simp)
  | ret pos =>
    simp only [ringModelStep] at hstep
    split at hstep
    case isTrue hcond =>
      simp only [Option.some_inj] at hstep
      subst hstep
      show ringRep (mp_page_ret_pos p pos) _
      match L, hrep with
      | [], hrep =>
        simpa using ringRep_ret_empty hcond.1 hrep
      | h :: t, hrep =>
        exact ringRep_ret_append hrep hcond.2 hcond.1
    case isFalse => exact absurd hstep (by simp)

/-- Any valid operation sequence preserves the representation. -/
theorem ringRep_runRing :
    ∀ (ops : List RingOp) (s : mp_page_ring × List Nat) (s' : mp_page_ring × List Nat),
      ringRep s.1 s.2 → runRing s ops = some s' → ringRep s'.1 s'.2
  | [], s, s', hrep, hrun => by
    simp only [runRing, Option.some_inj] at hrun
    subst hrun
    exact hrep
  | op :: ops, s, s', hrep, hrun => by
    simp only [runRing] at hrun
    match hstep : ringModelStep s.2 op with
    | none => rw [hstep] at hrun; exact absurd hrun (by simp)
    | some L' =>
      rw [hstep] at hrun
      refine ringRep_runRing ops _ s' ?_ hrun
      exact ringRep_step hrep hstep

/-- C8: Page ring consistency.  (1) For every page and any sequence of
valid ring insertions (`mp_page_ret_pos` of a fresh valid position) and
removals (`mp_page_get_pos` of a current member) starting from a
represented state, the final state satisfies `next[prev[i]] = i` and
`prev[next[i]] = i` for every ring member `i`.  (2) Inserting into an
empty ring creates a self-loop with `free = p`.  (3) Removing the last
element sets `free = UINT16_MAX`.  (4) Removing the head advances
`free` to its `next`. -/
theorem mp_page_ring_consistency :
    (∀ (p0 : mp_page_ring) (L0 : List Nat) (ops : List RingOp)
        (s' : mp_page_ring × List Nat),
      ringRep p0 L0 → runRing (p0, L0) ops = some s' →
      ∀ i ∈ s'.2, s'.1.next (s'.1.prev i) = i ∧ s'.1.prev (s'.1.next i) = i) ∧
    (∀ (p : mp_page_ring) (pos : Nat), p.free = UINT16_MAX →
      (mp_page_ret_pos p pos).next pos = pos ∧
      (mp_page_ret_pos p pos).prev pos = pos ∧
      (mp_page_ret_pos p pos).free = pos) ∧
    (∀ (p : mp_page_ring) (pos : Nat), ringRep p [pos] →
      (mp_page_get_pos p pos).free = UINT16_MAX) ∧
    (∀ (p : mp_page_ring) (pos c : Nat) (t : List Nat),
      ringRep p (pos :: c :: t) →
      (mp_page_get_pos p pos).free = p.next pos) := by
  refine ⟨?_, ?_, ?_, ?_⟩
  · intro p0 L0 ops s' hrep hrun
    exact ringRep_consistent (ringRep_runRing ops (p0, L0) s' hrep hrun)
  · intro p pos hfree
    unfold mp_page_ret_pos
    rw [if_pos hfree]
    exact ⟨Function.update_same .., Function.update_same .., rfl⟩
  · intro p pos hrep
    exact ((ringRep_get_single hrep).2.2 : _)
  · intro p pos c t hrep
    have hstep1 : ringStep p pos c := (List.chain'_cons.mp hrep.2.2.2.1).1
    have hfree' : (mp_page_get_pos p pos).free = c :=
      (ringRep_get_head hrep).2.2.1
    rw [hfree', hstep1.1]

/-- Witness for C8 on a concrete three-operation history. -/
theorem mp_page_ring_consistency_witness :
    (7 ∈ ringDemoEnd.2 ∧
      ringDemoEnd.1.next (ringDemoEnd.1.prev 7) = 7 ∧
      ringDemoEnd.1.prev (ringDemoEnd.1.next 7) = 7) := by
  have hrep : ringRep ringDemoStart [] := ⟨List.nodup_nil, by simp, rfl⟩
  have hrun : runRing (ringDemoStart, []) [RingOp.ret 3, RingOp.ret 7, RingOp.get 3]
      = some ringDemoEnd := rfl
  have hmem : 7 ∈ ringDemoEnd.2 := by decide
  exact ⟨hmem, mp_page_ring_consistency.1 ringDemoStart []
    [RingOp.ret 3, RingOp.ret 7, RingOp.get 3] ringDemoEnd hrep hrun 7 hmem⟩

/- ══════════════════════════════════════════════════════════════════════
   Pool theorems (claims C9, C3, C7)
   ══════════════════════════════════════════════════════════════════════ -/

/-- C9: Allocation-failure atomicity.  When `mp_pool_get` takes its
page-creation branch (no head page, or head page full) and either the
descriptor allocation (`malloc`) or the mapping (`mp_page_init`'s
`mmap`) fails, it returns the nil chunk and the pool — list, tree,
size, page store — is exactly the pool before the call. -/
theorem mp_pool_get_failure_atomic (pool : mp_pool_s) (env : PoolEnv)
    (hneed : mp_pool_need_new pool = true)
    (hfail : env.mallocFail = true ∨ env.mmapFail = true) :
    mp_pool_get pool env = (none, pool) := by
  unfold mp_pool_get
  rw [hneed]
  rcases hfail with hm | hm
  · rw [hm]
    simp
  · rw [hm]
    by_cases h : env.mallocFail = true
    · rw [h]; simp
    · rw [Bool.not_eq_true] at h
      rw [h]; simp

/-- Witness for C9: a fresh pool with a failing `malloc`. -/
theorem mp_pool_get_failure_atomic_witness :
    mp_pool_need_new initPool = true ∧
    mp_pool_get initPool
      { mallocFail := true, mmapFail := false,
        chunkAddrOf := fun i => (i + 1) * 2 ^ 20,
        dataAddrOf := fun i => (i + 1) * 2 ^ 40 } = (none, initPool) := by
  refine ⟨rfl, ?_⟩
  exact mp_pool_get_failure_atomic initPool _ rfl (Or.inl rfl)

/-- The first `mp_pool_get` on a fresh pool creates page 0 and issues its
chunk 0. -/
theorem mp_pool_get_base : mp_pool_get initPool envC = (some (0, 0), poolAfter 1) := by
  have hpages : (mp_pool_get initPool envC).2.pages = (poolAfter 1).pages := by
    funext i
    rcases eq_or_ne i 0 with rfl | hi
    · rfl
    · have hP : (mp_pool_get initPool envC).2.pages i = blankPage := by
        iterate 5
          refine (Function.update_noteq hi _ _).trans ?_
        rfl
      rw [hP]
      exact (Function.update_noteq hi (page0After 1) (fun _ => blankPage)).symm
  have h2 : (mp_pool_get initPool envC).2 =
      { (mp_pool_get initPool envC).2 with pages := (poolAfter 1).pages } := by
    rw [← hpages]
  have h3 : (mp_pool_get initPool envC).2 = poolAfter 1 := h2.trans rfl
  have h4 : (mp_pool_get initPool envC).1 = some (0, 0) := rfl
  calc mp_pool_get initPool envC
      = ((mp_pool_get initPool envC).1, (mp_pool_get initPool envC).2) := rfl
    _ = (some (0, 0), poolAfter 1) := by rw [h3, h4]

/-- While page 0 is not yet full, `mp_pool_get` issues its next
never-issued chunk. -/
theorem mp_pool_get_step (k : Nat) (h1 : 1 ≤ k) (h2 : k ≤ 1023) :
    mp_pool_get (poolAfter k) envC = (some (0, k), poolAfter (k + 1)) := by
  have hne : (k == 1024) = false := by simp; omega
  have hp0 : (poolAfter k).pages 0 = page0After k := by
    simp [poolAfter]
  have hneed : mp_pool_need_new (poolAfter k) = false := by
    unfold mp_pool_need_new
    show mp_page_full ((poolAfter k).pages 0) = false
    rw [hp0]
    unfold mp_page_full page0After PAGE_SIZE
    simp [hne]
  have hklt : (page0After k).fill < PAGE_SIZE := by
    show k < PAGE_SIZE
    unfold PAGE_SIZE; omega
  have hgn : mp_page_get_new (page0After k) = (some k, page0After (k + 1)) := by
    unfold mp_page_get_new
    rw [if_pos hklt]
    rfl
  have hh : (poolAfter k).head.getD 0 = 0 := rfl
  have hpg : (poolAfter k).pages = Function.update (fun _ => blankPage) 0 (page0After k) := rfl
  unfold mp_pool_get
  rw [hneed]
  simp only [Bool.false_eq_true, if_false]
  rw [hh, hp0, hgn, hpg, Function.update_idem]
  have hful : mp_page_full
      (Function.update (fun _ => blankPage) 0 ((some k, page0After (k + 1)).2) 0)
      = (k + 1 == 1024) := by
    show mp_page_full (page0After (k + 1)) = _
    unfold mp_page_full page0After PAGE_SIZE UINT16_MAX
    simp
  rw [hful]
  by_cases hk : k = 1023
  · subst hk
    rfl
  · have hne2 : (k + 1 == 1024) = false := by simp; omega
    rw [hne2]
    simp only [Bool.false_eq_true, if_false]
    rfl

/-- After `k` calls of `mp_pool_get` (1 ≤ k ≤ 1024) the pool is the
single-page pool with `k` issued chunks. -/
theorem mp_pool_getN_eq : ∀ k, 1 ≤ k → k ≤ 1024 → mp_pool_getN k initPool = poolAfter k := by
  intro k
  induction k with
  | zero => intro h; omega
  | succ n ih =>
    intro h1 h2
    rcases Nat.eq_or_lt_of_le h1 with he | hlt
    · rw [← he]
      show (mp_pool_get (mp_pool_getN 0 initPool) envC).2 = poolAfter 1
      show (mp_pool_get initPool envC).2 = poolAfter 1
      rw [mp_pool_get_base]
    · have hn1 : 1 ≤ n := by omega
      have hn2 : n ≤ 1023 := by omega
      show (mp_pool_get (mp_pool_getN n initPool) envC).2 = poolAfter (n + 1)
      rw [ih hn1 (by omega), mp_pool_get_step n hn1 hn2]

/-- C3 (code bug): after 1025 allocations the pool holds two pages, the
first issued chunk `(0, 0)` lies inside page 0's descriptor range, yet
`mp_pool_tree_find` returns nil for it: the walk starts at `pool->head`
— the LIST head, which is page 1 after the insertion of the second page
— instead of `pool->root`, and page 0 is not reachable from page 1's
tree links. -/
theorem mp_pool_tree_find_misses_issued_chunk :
    mp_pool_getN PAGE_SIZE initPool = poolAfter PAGE_SIZE ∧
    (mp_pool_get initPool envC).1 = some (0, 0) ∧
    (mp_pool_get (poolAfter PAGE_SIZE) envC).1 = some (1, 0) ∧
    (poolStar.pages 0).chunkAddr ≤ chunkDescAddr poolStar (0, 0) ∧
    chunkDescAddr poolStar (0, 0) < (poolStar.pages 0).chunkAddr + PAGE_SIZE ∧
    mp_pool_tree_find poolStar (chunkDescAddr poolStar (0, 0))
      (chunkDataAddr poolStar (0, 0)) 64 = none := by
  refine ⟨mp_pool_getN_eq 1024 (by omega) (by omega), rfl, by decide, by decide,
    by decide, by decide⟩

/-- C7 (code bug): the page-exhaustion scenario.  After `PAGE_SIZE + 1`
allocations the first half of the claim holds (two pages, the first
with `fill = PAGE_SIZE` and an empty ring, the second with `fill = 1`),
but returning the first page's chunks via `mp_pool_ret` is impossible:
already for the last-issued chunk `(0, 1023)` the internal
`mp_pool_tree_find` (which starts at the list head, page 1) returns
nil, and `mp_page_ret(NULL, chunk)` dereferences the null pointer —
modelled as `none`. -/
theorem mp_pool_ret_crashes_in_exhaustion_scenario :
    mp_pool_getN PAGE_SIZE initPool = poolAfter PAGE_SIZE ∧
    poolStar.size = 2 ∧
    (poolStar.pages 0).fill = PAGE_SIZE ∧
    (poolStar.pages 0).ring.free = UINT16_MAX ∧
    (poolStar.pages 1).fill = 1 ∧
    (mp_pool_ret poolStar (0, 1023)).isSome = false := by
  refine ⟨mp_pool_getN_eq 1024 (by omega) (by omega), by decide, by decide,
    by decide, by decide, by decide⟩

/- ══════════════════════════════════════════════════════════════════════
   Chunk and header I/O theorems (claims C2, C1, C6)
   ══════════════════════════════════════════════════════════════════════ -/

/-- C2 (code bug): for the smallest chunk (stored dims `(0, 0)`,
effective size `w = h = 1`) the claim demands exactly `h * w * 8 = 8`
bytes; the code's row loop `for (_y = 0; _y <= size_y; _y++)` runs
`h + 1 = 2` times, so `mp_chunk_recv` fails on an 8-byte stream,
consumes 16 bytes when they are available (writing a second row at the
full stride), and `mp_chunk_send` emits 16 bytes as well. -/
theorem mp_chunk_recv_extra_row :
    mp_chunk_recv 0 0 (List.replicate (1 * 1 * SIZE_D) 0) = none ∧
    (mp_chunk_recv 0 0 (List.replicate 16 0)).map (fun r => r.2.length) = some 0 ∧
    mp_chunk_recv_consumed 0 0 = 16 ∧
    (mp_chunk_send 0 0 (fun _ => 0)).length = 16 ∧
    16 ≠ 1 * 1 * SIZE_D := by decide

/-- C1 (code bug): both header loops drain `rem = sizeof(uint64_t) = 8`
bytes, not the full 16-byte header they packed.  `mp_matrix_send_msize`
for a matrix of size `(3, 2)` emits only the 8 big-endian bytes of
`Mx = 3`; the receiver reads 8 bytes and decodes `My` from the 8
uninitialized stack bytes `hdr[8..16)` (here spelling 5), so the
received size is `(3, 5) ≠ (3, 2)` and the round-trip of claim C1
fails. -/
theorem mp_matrix_msize_header_truncated :
    mp_matrix_send_msize 3 2 = be64bytes 3 ∧
    (mp_matrix_send_msize 3 2).length = 8 ∧
    (mp_matrix_send_msize 3 2).length ≠ 16 ∧
    (mp_matrix_recv_msize ⟨7, 7, true, []⟩
        (mp_matrix_send_msize 3 2 ++ List.replicate 48 1)
        [0, 0, 0, 0, 0, 0, 0, 5] ⟨false, false⟩).2.1.size_x = 3 ∧
    (mp_matrix_recv_msize ⟨7, 7, true, []⟩
        (mp_matrix_send_msize 3 2 ++ List.replicate 48 1)
        [0, 0, 0, 0, 0, 0, 0, 5] ⟨false, false⟩).2.1.size_y = 5 ∧
    (5 : Nat) ≠ 2 := by decide

/-- C6 counterexample: `mp_matrix_set_size` writes the header with a raw
`pwrite` of the two host-order (little-endian) `uint64_t`s, NOT in
network byte order: for size `(3, 2)` bytes 0..7 are `03 00 .. 00`, not
`00 .. 00 03`.  Also, on a failing `ftruncate` the compiled variant
leaves `m.size` unchanged (here 7) instead of clearing it to `(0, 0)`. -/
theorem mp_matrix_set_size_counterexample :
    ¬ ((mp_matrix_set_size ⟨7, 7, true, []⟩ 3 2 ⟨false, false⟩).2.file.take 8
        = be64bytes 3) ∧
    (mp_matrix_set_size ⟨7, 7, true, []⟩ 3 2 ⟨false, false⟩).2.file.take 8
      = le64bytes 3 ∧
    (mp_matrix_set_size ⟨7, 7, true, [9, 9]⟩ 3 2 ⟨true, false⟩).2.size_x = 7 ∧
    (mp_matrix_set_size ⟨7, 7, true, [9, 9]⟩ 3 2 ⟨true, false⟩).1 = -1 := by decide

/-- C6 amended: `mp_matrix_set_size` requires a valid fd (both variants
fail leaving the matrix untouched without one); on success it truncates
the backing file to `16 + Mx * My * 8` bytes, writes `(Mx, My)` at
offset 0 in HOST byte order (little-endian on the reference platform),
and sets `m.size`; on a truncation failure it returns `-1` and leaves
`m.size` unchanged — while the inline header variant (which writes no
header bytes at all) is the one that clears `m.size` to `(0, 0)`. -/
theorem mp_matrix_set_size_amended :
    (∀ (m : mp_matrix_f) (sx sy : Nat) (env : IoEnv), m.fd = false →
      mp_matrix_set_size m sx sy env = (-1, m) ∧
      mp_matrix_set_size_inline m sx sy env = (-1, m)) ∧
    (∀ (m : mp_matrix_f) (sx sy : Nat) (env : IoEnv),
      m.fd = true → env.ftruncateFail = false → env.pwriteFail = false →
      sx * sy * SIZE_D + 16 < 2 ^ 64 →
      (mp_matrix_set_size m sx sy env).1 = 0 ∧
      (mp_matrix_set_size m sx sy env).2.file.length = 16 + sx * sy * SIZE_D ∧
      (mp_matrix_set_size m sx sy env).2.file.take 16 = le64bytes sx ++ le64bytes sy ∧
      (mp_matrix_set_size m sx sy env).2.size_x = sx ∧
      (mp_matrix_set_size m sx sy env).2.size_y = sy) ∧
    (∀ (m : mp_matrix_f) (sx sy : Nat) (env : IoEnv),
      m.fd = true → env.ftruncateFail = true →
      (mp_matrix_set_size m sx sy env).1 = -1 ∧
      (mp_matrix_set_size m sx sy env).2.size_x = m.size_x ∧
      (mp_matrix_set_size m sx sy env).2.size_y = m.size_y ∧
      (mp_matrix_set_size_inline m sx sy env).2.size_x = 0 ∧
      (mp_matrix_set_size_inline m sx sy env).2.size_y = 0) := by
  refine ⟨?_, ?_, ?_⟩
  · intro m sx sy env hfd
    constructor
    · unfold mp_matrix_set_size
      rw [hfd]
      simp
    · unfold mp_matrix_set_size_inline
      rw [hfd]
      simp
  · intro m sx sy env hfd hft hpw hbound
    have hdata : sx * sy * SIZE_D % 2 ^ 64 = sx * sy * SIZE_D :=
      Nat.mod_eq_of_lt (by omega)
    have htotal : (16 + sx * sy * SIZE_D) % 2 ^ 64 = 16 + sx * sy * SIZE_D :=
      Nat.mod_eq_of_lt (by omega)
    have hflen : (ftruncateFile m.file ((16 + sx * sy * SIZE_D % 2 ^ 64) % 2 ^ 64)).length
        = 16 + sx * sy * SIZE_D := by
      rw [hdata, htotal]
      unfold ftruncateFile
      simp
      omega
    have hhdrlen : (le64bytes sx ++ le64bytes sy).length = 16 := by
      unfold le64bytes
      simp
    unfold mp_matrix_set_size
    rw [hfd, hft, hpw]
    simp only [Bool.true_eq_false, Bool.false_eq_true, if_false, if_true]
    refine ⟨trivial, ?_, ?_, trivial, trivial⟩
    · show (pwriteAt0 (ftruncateFile m.file _) (le64bytes sx ++ le64bytes sy)).length
        = 16 + sx * sy * SIZE_D
      unfold pwriteAt0
      rw [List.length_append, List.length_drop, hhdrlen, hflen]
      omega
    · show (pwriteAt0 (ftruncateFile m.file _) (le64bytes sx ++ le64bytes sy)).take 16
        = le64bytes sx ++ le64bytes sy
      unfold pwriteAt0
      rw [← hhdrlen, List.take_left]
  · intro m sx sy env hfd hft
    refine ⟨?_, ?_, ?_, ?_, ?_⟩ <;>
      · first
        | (unfold mp_matrix_set_size; rw [hfd, hft]; simp)
        | (unfold mp_matrix_set_size_inline; rw [hfd, hft]; simp)

/-- Witness for the amended C6 on a concrete matrix of size `(3, 2)`. -/
theorem mp_matrix_set_size_amended_witness :
    (mp_matrix_set_size ⟨7, 7, true, []⟩ 3 2 ⟨false, false⟩).1 = 0 ∧
    (mp_matrix_set_size ⟨7, 7, true, []⟩ 3 2 ⟨false, false⟩).2.file.length
      = 16 + 3 * 2 * SIZE_D ∧
    (mp_matrix_set_size ⟨7, 7, true, []⟩ 3 2 ⟨false, false⟩).2.file.take 16
      = le64bytes 3 ++ le64bytes 2 ∧
    (mp_matrix_set_size ⟨7, 7, true, []⟩ 3 2 ⟨false, false⟩).2.size_x = 3 ∧
    (mp_matrix_set_size ⟨7, 7, true, []⟩ 3 2 ⟨false, false⟩).2.size_y = 2 :=
  mp_matrix_set_size_amended.2.1 ⟨7, 7, true, []⟩ 3 2 ⟨false, false⟩ rfl rfl rfl
    (by norm_num [SIZE_D])


theorem rb_tree_insert_optimize_go_cache :
    ∀ (fuel : Nat) (s : mp_tree_s),
      (rb_tree_insert_optimize_go s fuel).offset = s.offset ∧
      (rb_tree_insert_optimize_go s fuel).find = s.find := by
  intro fuel
  induction fuel with
  | zero => intro s; exact ⟨rfl, rfl⟩
  | succ n ih =>
    intro s
    unfold rb_tree_insert_optimize_go
    by_cases h1 : s.pos - 1 < 0
    · rw [if_pos h1]; exact ⟨rfl, rfl⟩
    · rw [if_neg h1]
      by_cases h2 : (s.heap (s.stack (s.pos - 1 + 1))).color = MP_BLACK
      · rw [if_pos h2]; exact ⟨rfl, rfl⟩
      · rw [if_neg h2]
        by_cases h3 : rb_red_opt s.heap
            ((s.heap (s.stack (s.pos - 1))).sides (1 - s.sides (s.pos - 1))) = true
        · rw [if_pos h3]
          exact ih _
        · rw [if_neg h3]
          by_cases h4 : s.pos - 1 = 0
          · rw [if_pos h4]; exact ⟨rfl, rfl⟩
          · rw [if_neg h4]; exact ⟨rfl, rfl⟩

theorem rb_rem_redsib_cache (s : mp_tree_s) (side p sb : Nat) :
    (rb_rem_redsib s side p sb).offset = s.offset ∧
    (rb_rem_redsib s side p sb).find = s.find := by
  unfold rb_rem_redsib
  constructor <;> (split <;> rfl)

theorem rb_rem_finalrot_cache (s : mp_tree_s) (side p sb : Nat) :
    (rb_rem_finalrot s side p sb).offset = s.offset ∧
    (rb_rem_finalrot s side p sb).find = s.find := by
  unfold rb_rem_finalrot
  constructor <;> (split <;> rfl)

theorem rb_tree_remove_optimize_go_cache :
    ∀ (fuel : Nat) (s : mp_tree_s),
      (rb_tree_remove_optimize_go s fuel).offset = s.offset ∧
      (rb_tree_remove_optimize_go s fuel).find = s.find := by
  intro fuel
  induction fuel with
  | zero => intro s; exact ⟨rfl, rfl⟩
  | succ n ih =>
    intro s
    unfold rb_tree_remove_optimize_go
    by_cases h1 : s.pos < 0
    · rw [if_pos h1]; exact ⟨rfl, rfl⟩
    · rw [if_neg h1]
      by_cases h2 : rb_red_opt s.heap
          ((s.heap (s.stack s.pos)).sides (s.sides s.pos)) = true
      · rw [if_pos h2]; exact ⟨rfl, rfl⟩
      · rw [if_neg h2]
        by_cases h3 : rb_red_opt s.heap
            ((s.heap (s.stack s.pos)).sides (1 - s.sides s.pos)) = true
        · simp only [h3, if_true]
          set s1 := rb_rem_redsib s (s.sides s.pos) (s.stack s.pos)
            ((((s.heap (s.stack s.pos)).sides (1 - s.sides s.pos))).getD 0) with hs1
          have hc1 := rb_rem_redsib_cache s (s.sides s.pos) (s.stack s.pos)
            ((((s.heap (s.stack s.pos)).sides (1 - s.sides s.pos))).getD 0)
          split
          · exact ⟨hc1.1, hc1.2⟩
          · split
            · constructor
              · exact (ih _).1.trans hc1.1
              · exact (ih _).2.trans hc1.2
            · exact ⟨(rb_rem_finalrot_cache _ _ _ _).1.trans hc1.1,
                (rb_rem_finalrot_cache _ _ _ _).2.trans hc1.2⟩
        · rw [Bool.not_eq_true] at h3
          simp only [h3, Bool.false_eq_true, if_false]
          split
          · exact ⟨rfl, rfl⟩
          · split
            · exact ih _
            · exact ⟨(rb_rem_finalrot_cache _ _ _ _).1,
                (rb_rem_finalrot_cache _ _ _ _).2⟩

/- ══════════════════════════════════════════════════════════════════════
   Matrix spatial index theorems (claims C4, C5, C10)
   ══════════════════════════════════════════════════════════════════════ -/

/-- The walk in `rb_tree_find` returns the same node as the cold walk
(it differs only in recording the path). -/
theorem rb_tree_find_go_fst (h : Nat → mp_chunk_s) (off : Nat) :
    ∀ (fuel : Nat) (node : Option Nat) (pos : Int) (stk sds : Int → Nat),
      (rb_tree_find_go h off node pos stk sds fuel).1 = rb_cold_find h off node fuel := by
  intro fuel
  induction fuel with
  | zero =>
    intro node pos stk sds
    cases node <;> rfl
  | succ n ih =>
    intro node pos stk sds
    cases node with
    | none => rfl
    | some m =>
      by_cases hc : mp_coffs_cmp (h m).opos off = 0
      · simp only [rb_tree_find_go, rb_cold_find, if_pos hc]
      · simp only [rb_tree_find_go, rb_cold_find, if_neg hc]
        exact ih _ _ _ _

/-- The branchless comparison is zero exactly on equal offsets. -/
theorem mp_coffs_cmp_eq_zero_iff (a b : Nat) : mp_coffs_cmp a b = 0 ↔ a = b := by
  unfold mp_coffs_cmp
  rcases lt_trichotomy a b with hlt | heq | hgt
  · rw [if_neg (by omega), if_pos hlt]
    constructor
    · intro hc; omega
    · intro hc; omega
  · subst heq
    simp
  · rw [if_pos hgt, if_neg (by omega)]
    constructor
    · intro hc; omega
    · intro hc; omega

/-- A cache hit in `rb_tree_find` implies the cached offset IS the
query. -/
theorem rb_cache_hit_offset {s : mp_tree_s} {off : Nat}
    (hhit : rb_cache_hit s off = true) : s.offset = off := by
  unfold rb_cache_hit at hhit
  match hs : s.find with
  | some n =>
    rw [hs] at hhit
    simp only [beq_iff_eq] at hhit
    exact (mp_coffs_cmp_eq_zero_iff _ _).mp hhit
  | none =>
    rw [hs] at hhit
    simp at hhit

/-- Frame of a lookup: `rb_tree_find` never modifies root, heap or the
allocator, stores the queried offset in the cache, and caches exactly
its result. -/
theorem rb_tree_find_frame (s : mp_tree_s) (off : Nat) :
    (rb_tree_find s off).2.root = s.root ∧
    (rb_tree_find s off).2.heap = s.heap ∧
    (rb_tree_find s off).2.alloc = s.alloc ∧
    (rb_tree_find s off).2.offset = off ∧
    (rb_tree_find s off).2.find = (rb_tree_find s off).1 := by
  unfold rb_tree_find
  by_cases hhit : rb_cache_hit s off = true
  · rw [if_pos hhit]
    refine ⟨rfl, rfl, rfl, ?_, rfl⟩
    exact rb_cache_hit_offset hhit
  · rw [if_neg hhit]
    exact ⟨rfl, rfl, rfl, rfl, rfl⟩

/-- Given the cache invariant, a lookup at any non-sentinel offset
returns exactly what the cold walk returns. -/
theorem rb_tree_find_transparent {s : mp_tree_s} (hI : TreeCacheInv s)
    (off : Nat) (hoff : off ≠ UINT64_MAX) :
    (rb_tree_find s off).1 = coldFind s off := by
  unfold rb_tree_find
  by_cases hhit : rb_cache_hit s off = true
  · rw [if_pos hhit]
    have hoeq := rb_cache_hit_offset hhit
    have := hI (by rw [hoeq]; exact hoff)
    rw [hoeq] at this
    exact this.symm
  · rw [if_neg hhit]
    exact rb_tree_find_go_fst s.heap off 64 s.root (-1) s.stack s.sides

/-- A lookup preserves the cache invariant. -/
theorem treeCacheInv_find {s : mp_tree_s} (hI : TreeCacheInv s) (off : Nat) :
    TreeCacheInv (rb_tree_find s off).2 := by
  unfold rb_tree_find
  by_cases hhit : rb_cache_hit s off = true
  · rw [if_pos hhit]
    exact hI
  · rw [if_neg hhit]
    intro _
    show rb_cold_find s.heap off s.root 64 = _
    exact (rb_tree_find_go_fst s.heap off 64 s.root (-1) s.stack s.sides).symm

/-- `rb_tree_insert_optimize` leaves the cache fields alone. -/
theorem rb_tree_insert_optimize_cache (s : mp_tree_s) :
    (rb_tree_insert_optimize s).offset = s.offset ∧
    (rb_tree_insert_optimize s).find = s.find := by
  unfold rb_tree_insert_optimize
  have h := rb_tree_insert_optimize_go_cache 64 s
  cases hr : (rb_tree_insert_optimize_go s 64).root with
  | none => simp only [hr]; exact h
  | some r => simp only [hr]; exact h

/-- C4 (code bug): inserting offsets 10, 5, 20, 15, 30 builds a valid
red/black tree, but removing 20 — a two-children node that is its
parent's RIGHT child whose in-order predecessor is its direct left
child — unlinks through the stale `side` captured before the
two-children block: node 15 (id 3) ends with itself as left child, node
30 (id 4) is lost, and the executable red/black validity check fails
(claim C4 asserts it holds after any insert/remove sequence). -/
theorem rb_tree_remove_breaks_rb_validity :
    rbValidB (runMOps [MOp.ins 10, MOp.ins 5, MOp.ins 20, MOp.ins 15, MOp.ins 30])
      = true ∧
    rbValidB (runMOps [MOp.ins 10, MOp.ins 5, MOp.ins 20, MOp.ins 15, MOp.ins 30,
      MOp.rem 20]) = false ∧
    ((runMOps [MOp.ins 10, MOp.ins 5, MOp.ins 20, MOp.ins 15, MOp.ins 30,
      MOp.rem 20]).heap 3).sides 0 = some 3 ∧
    coldFind (runMOps [MOp.ins 10, MOp.ins 5, MOp.ins 20, MOp.ins 15, MOp.ins 30,
      MOp.rem 20]) 30 = none := by decide

/-- C5 counterexample: insert a chunk at the packed offset
`UINT64_MAX = 2^64 - 1` (coordinates `(2^32-1, 2^32-1)`), look it up,
remove it.  `rb_tree_remove` sets the cached offset to the sentinel
`UINT64_MAX` but leaves `tree->find` pointing at the removed node, so
the next `rb_tree_find` for that offset hits the cache and returns the
removed node, while the cold root-to-leaf walk (the tree is now empty)
returns nil. -/
theorem rb_tree_find_cache_stale_counterexample :
    (rb_tree_find (runMOps [MOp.ins UINT64_MAX, MOp.find UINT64_MAX,
      MOp.rem UINT64_MAX]) UINT64_MAX).1 = some 0 ∧
    coldFind (runMOps [MOp.ins UINT64_MAX, MOp.find UINT64_MAX,
      MOp.rem UINT64_MAX]) UINT64_MAX = none ∧
    (runMOps [MOp.ins UINT64_MAX, MOp.find UINT64_MAX, MOp.rem UINT64_MAX]).root
      = none := by decide

/-- The two-children splice leaves the cache fields alone. -/
theorem rb_rem_twochild_cache (s1 : mp_tree_s) (node : Nat) :
    (rb_rem_twochild s1 node).offset = s1.offset ∧
    (rb_rem_twochild s1 node).find = s1.find := by
  unfold rb_rem_twochild
  by_cases hp : s1.pos = -1
  · simp only [hp, if_true]
    exact ⟨trivial, trivial⟩
  · simp only [hp, if_false]
    exact ⟨trivial, trivial⟩

/-- `rb_tree_remove_optimize` leaves the cache fields alone. -/
theorem rb_tree_remove_optimize_cache (s : mp_tree_s) :
    (rb_tree_remove_optimize s).offset = s.offset ∧
    (rb_tree_remove_optimize s).find = s.find :=
  rb_tree_remove_optimize_go_cache 64 s

/-- After the node-found branch of `rb_tree_remove` (which starts from a
state whose cached offset is already the sentinel), the resulting state
still carries the sentinel offset. -/
theorem rb_rem_body_offset (s1 : mp_tree_s) (node : Nat) :
    (let side := s1.sides s1.pos
     let s2 :=
       if ((s1.heap node).sides 0).isSome && ((s1.heap node).sides 1).isSome then
         rb_rem_twochild s1 node
       else s1
     let child := match (s2.heap node).sides 0 with
       | some c => some c
       | none => (s2.heap node).sides 1
     let s3 :=
       if s2.pos = -1 then { s2 with root := child }
       else { s2 with heap := hside s2.heap (s2.stack s2.pos) side child }
     if (s3.heap node).color = MP_BLACK then rb_tree_remove_optimize s3 else s3).offset
      = s1.offset := by
  by_cases hb : (((s1.heap node).sides 0).isSome && ((s1.heap node).sides 1).isSome) = true
  · simp only [hb, if_true]
    by_cases hp : (rb_rem_twochild s1 node).pos = -1
    · simp only [hp, if_true]
      split
      · exact (rb_tree_remove_optimize_go_cache 64 _).1.trans (rb_rem_twochild_cache _ _).1
      · exact (rb_rem_twochild_cache _ _).1
    · simp only [hp, if_false]
      split
      · exact (rb_tree_remove_optimize_go_cache 64 _).1.trans (rb_rem_twochild_cache _ _).1
      · exact (rb_rem_twochild_cache _ _).1
  · rw [Bool.not_eq_true] at hb
    simp only [hb, Bool.false_eq_true, if_false]
    by_cases hp : s1.pos = -1
    · simp only [hp, if_true]
      split
      · exact (rb_tree_remove_optimize_go_cache 64 _).1
      · rfl
    · simp only [hp, if_false]
      split
      · exact (rb_tree_remove_optimize_go_cache 64 _).1
      · rfl

/-- An insert preserves the cache invariant. -/
theorem treeCacheInv_ins {s : mp_tree_s} (hI : TreeCacheInv s) (off : Nat) :
    TreeCacheInv (rb_tree_insert s off) := by
  unfold rb_tree_insert
  by_cases hnh : rb_node_hit s off = true
  · simp only [hnh, if_true]
    exact hI
  · rw [Bool.not_eq_true] at hnh
    simp only [hnh, Bool.false_eq_true, if_false]
    cases hf : (rb_tree_find s off).1 with
    | some n =>
      simp only [hf]
      exact treeCacheInv_find hI off
    | none =>
      simp only [hf]
      by_cases hp : (rb_tree_find s off).2.pos = -1
      · simp only [hp, if_true]
        intro hoff
        exact absurd (rb_tree_insert_optimize_cache _).1 hoff
      · simp only [hp, if_false]
        intro hoff
        exact absurd (rb_tree_insert_optimize_cache _).1 hoff

/-- A removal preserves the cache invariant. -/
theorem treeCacheInv_rem {s : mp_tree_s} (hI : TreeCacheInv s) (off : Nat) :
    TreeCacheInv (rb_tree_remove s off) := by
  unfold rb_tree_remove
  by_cases hnh : rb_node_hit s off = true
  · simp only [hnh, if_true]
    cases hf : s.find with
    | none => simp only [hf]; exact hI
    | some node =>
      simp only [hf]
      intro hoff
      exact absurd
        (rb_rem_body_offset { s with find := some node, offset := UINT64_MAX } node) hoff
  · rw [Bool.not_eq_true] at hnh
    simp only [hnh, Bool.false_eq_true, if_false]
    cases hf : (rb_tree_find s off).1 with
    | none => simp only [hf]; exact treeCacheInv_find hI off
    | some node =>
      simp only [hf]
      intro hoff
      exact absurd
        (rb_rem_body_offset { (rb_tree_find s off).2 with offset := UINT64_MAX } node)
        hoff

/-- Every state reachable from the initial tree by find / insert /
remove operations satisfies the cache invariant. -/
theorem treeCacheInv_run (ops : List MOp) : TreeCacheInv (runMOps ops) := by
  have main : ∀ (l : List MOp) (s : mp_tree_s),
      TreeCacheInv s → TreeCacheInv (l.foldl mApply s) := by
    intro l
    induction l with
    | nil => intro s hI; exact hI
    | cons op t ih =>
      intro s hI
      refine ih (mApply s op) ?_
      cases op with
      | find o => exact treeCacheInv_find hI o
      | ins o => exact treeCacheInv_ins hI o
      | rem o => exact treeCacheInv_rem hI o
  exact main ops initTree (fun h => absurd rfl h)

/-- C5 (corrected): cache transparency of the matrix-index lookup holds
for every offset EXCEPT the sentinel `UINT64_MAX`: at every state
reachable from the empty tree by find / insert / remove operations, and
for every offset other than `UINT64_MAX`, `rb_tree_find` returns
exactly what the cold root-to-leaf walk ignoring the
`(last_offset, last_node)` cache returns, and the lookup does not
modify the tree structure (root and chunk heap are unchanged).  The
exception is necessary: removal "invalidates" the cache only by
setting the cached offset to `UINT64_MAX` while leaving the cached node
pointer in place, so a lookup at offset `UINT64_MAX` itself can be
served a stale — even already removed — node. -/
theorem rb_tree_find_cache_transparent_amended (ops : List MOp) (off : Nat)
    (hoff : off ≠ UINT64_MAX) :
    (rb_tree_find (runMOps ops) off).1 = coldFind (runMOps ops) off ∧
    (rb_tree_find (runMOps ops) off).2.root = (runMOps ops).root ∧
    (rb_tree_find (runMOps ops) off).2.heap = (runMOps ops).heap :=
  ⟨rb_tree_find_transparent (treeCacheInv_run ops) off hoff,
   (rb_tree_find_frame _ _).1, (rb_tree_find_frame _ _).2.1⟩

/-- Witness for the amended C5 at the state reached by inserting
offsets 7 and 3 and removing 3, querying offset 7. -/
theorem rb_tree_find_cache_transparent_amended_witness :
    (7 : Nat) ≠ UINT64_MAX ∧
    ((rb_tree_find (runMOps [MOp.ins 7, MOp.ins 3, MOp.rem 3]) 7).1
        = coldFind (runMOps [MOp.ins 7, MOp.ins 3, MOp.rem 3]) 7 ∧
      (rb_tree_find (runMOps [MOp.ins 7, MOp.ins 3, MOp.rem 3]) 7).2.root
        = (runMOps [MOp.ins 7, MOp.ins 3, MOp.rem 3]).root ∧
      (rb_tree_find (runMOps [MOp.ins 7, MOp.ins 3, MOp.rem 3]) 7).2.heap
        = (runMOps [MOp.ins 7, MOp.ins 3, MOp.rem 3]).heap) :=
  ⟨by decide,
   rb_tree_find_cache_transparent_amended [MOp.ins 7, MOp.ins 3, MOp.rem 3] 7
     (by decide)⟩

/-- A stack encoding forces the cursor to sit at or above the empty
mark `-1`. -/
theorem stackEnc_neg_one_le {h : Nat → mp_chunk_s} {stk : Int → Nat} {pos : Int}
    {K : List (Nat × EncT)} (hK : StackEnc h stk pos K) : -1 ≤ pos := by
  cases K with
  | nil =>
    have e : pos = -1 := hK
    omega
  | cons e K' =>
    obtain ⟨i, R⟩ := e
    have h2 : 0 ≤ pos ∧ stk pos = i ∧ Encodes h ((h i).sides 1) R ∧
        StackEnc h stk (pos - 1) K' := hK
    have := h2.1
    omega

/-- The stack encoding only reads slots at or below the cursor, so it
survives changes above it. -/
theorem stackEnc_congr {h : Nat → mp_chunk_s} :
    ∀ (K : List (Nat × EncT)) (pos : Int) (stk stk' : Int → Nat),
      (∀ j : Int, j ≤ pos → stk' j = stk j) →
      StackEnc h stk pos K → StackEnc h stk' pos K := by
  intro K
  induction K with
  | nil =>
    intro pos stk stk' hupd hK
    exact hK
  | cons e K' ih =>
    obtain ⟨i, R⟩ := e
    intro pos stk stk' hupd hK
    have h2 : 0 ≤ pos ∧ stk pos = i ∧ Encodes h ((h i).sides 1) R ∧
        StackEnc h stk (pos - 1) K' := hK
    obtain ⟨h0, h1, h2', h3⟩ := h2
    show 0 ≤ pos ∧ stk' pos = i ∧ Encodes h ((h i).sides 1) R ∧
        StackEnc h stk' (pos - 1) K'
    exact ⟨h0, (hupd pos le_rfl).trans h1, h2',
      ih (pos - 1) stk stk' (fun j hj => hupd j (by omega)) h3⟩

/-- Correctness of the traversal loop of `mp_tree_free`: with the
current node encoding tree `T`, the stack encoding pending work `K`,
and enough fuel, the loop emits the in-order ids of `T` followed by the
pending ids, and terminates. -/
theorem mp_tree_free_go_correct :
    ∀ (fuel : Nat) (T : EncT) (K : List (Nat × EncT)) (h : Nat → mp_chunk_s)
      (node : Option Nat) (pos : Int) (stk : Int → Nat),
      Encodes h node T → StackEnc h stk pos K →
      2 * sizeT T + 1 + costK K ≤ fuel →
      ∃ st, mp_tree_free_go h node pos stk fuel
        = some (inorderIds T ++ flattenK K, st) := by
  intro fuel
  induction fuel with
  | zero =>
    intro T K h node pos stk hE hK hf
    omega
  | succ m ih =>
    intro T K h node pos stk hE hK hf
    cases hE with
    | nd n L R hL hR =>
      have hK' : StackEnc h (Function.update stk (pos + 1) n) (pos + 1)
          ((n, R) :: K) := by
        show 0 ≤ pos + 1 ∧ Function.update stk (pos + 1) n (pos + 1) = n ∧
          Encodes h ((h n).sides 1) R ∧
          StackEnc h (Function.update stk (pos + 1) n) (pos + 1 - 1) K
        refine ⟨by have := stackEnc_neg_one_le hK; omega,
          Function.update_same _ _ _, hR, ?_⟩
        have e : pos + 1 - 1 = pos := by omega
        rw [e]
        exact stackEnc_congr K pos stk _
          (fun j hj => Function.update_noteq (by omega) _ _) hK
      obtain ⟨st, hst⟩ := ih L ((n, R) :: K) h ((h n).sides 0) (pos + 1)
        (Function.update stk (pos + 1) n) hL hK'
        (by simp only [sizeT, costK] at hf ⊢; omega)
      refine ⟨st, ?_⟩
      show mp_tree_free_go h ((h n).sides 0) (pos + 1)
        (Function.update stk (pos + 1) n) m = _
      rw [hst]
      simp only [inorderIds, flattenK, List.append_assoc, List.cons_append]
    | leaf =>
      cases K with
      | nil =>
        have hpos : pos = -1 := hK
        refine ⟨stk, ?_⟩
        show (if pos = -1 then some ([], stk)
          else match mp_tree_free_go h ((h (stk pos)).sides 1) (pos - 1) stk m with
            | none => none
            | some (l, st) => some (stk pos :: l, st)) = _
        rw [if_pos hpos]
        rfl
      | cons e K'
      =>
        obtain ⟨i, R⟩ := e
        have h2 : 0 ≤ pos ∧ stk pos = i ∧ Encodes h ((h i).sides 1) R ∧
            StackEnc h stk (pos - 1) K' := hK
        obtain ⟨h0, h1, h2', h3⟩ := h2
        have hpos : ¬ pos = -1 := by omega
        obtain ⟨st, hst⟩ := ih R K' h ((h i).sides 1) (pos - 1) stk h2' h3
          (by simp only [sizeT, costK] at hf ⊢; omega)
        refine ⟨st, ?_⟩
        show (if pos = -1 then some ([], stk)
          else match mp_tree_free_go h ((h (stk pos)).sides 1) (pos - 1) stk m with
            | none => none
            | some (l, st) => some (stk pos :: l, st)) = _
        rw [if_neg hpos, h1, hst]
        rfl

/-- C10 (implicit claim): `mp_tree_free` hands every chunk of the tree
to `mp_pool_ret` (the in-order ids of the encoded tree, each exactly
once) yet leaves the tree handle itself untouched: the returned state
keeps the pre-call `root`, the cache fields `find` and `offset`, and
the chunk heap — nothing is reset to the empty-tree state, so a
subsequent `rb_tree_find` on the same handle walks chunks that are
already back in the pool. -/
theorem mp_tree_free_returns_all_but_leaves_handle (s : mp_tree_s) (T : EncT)
    (fuel : Nat) (hE : Encodes s.heap s.root T)
    (hfuel : 2 * sizeT T + 1 ≤ fuel) :
    ∃ r, mp_tree_free s fuel = some r ∧ r.2 = inorderIds T ∧
      r.1.root = s.root ∧ r.1.find = s.find ∧ r.1.offset = s.offset ∧
      r.1.heap = s.heap := by
  have hK : StackEnc s.heap s.stack (-1) [] := rfl
  obtain ⟨st, hst⟩ := mp_tree_free_go_correct fuel T [] s.heap s.root (-1)
    s.stack hE hK (by simp only [costK]; omega)
  refine ⟨({ s with stack := st }, inorderIds T), ?_, rfl, rfl, rfl, rfl, rfl⟩
  unfold mp_tree_free
  rw [hst]
  simp [flattenK]

/-- Witness for C10 on the concrete one-node tree `freeDemo` with fuel
8: the single chunk id 5 is returned and root, cache and heap are
untouched. -/
theorem mp_tree_free_returns_all_but_leaves_handle_witness :
    Encodes freeDemo.heap freeDemo.root (EncT.nd 5 .leaf .leaf) ∧
    2 * sizeT (EncT.nd 5 .leaf .leaf) + 1 ≤ 8 ∧
    ∃ r, mp_tree_free freeDemo 8 = some r ∧
      r.2 = inorderIds (EncT.nd 5 .leaf .leaf) ∧
      r.1.root = freeDemo.root ∧ r.1.find = freeDemo.find ∧
      r.1.offset = freeDemo.offset ∧ r.1.heap = freeDemo.heap := by
  have hE : Encodes freeDemo.heap freeDemo.root (EncT.nd 5 .leaf .leaf) :=
    Encodes.nd 5 .leaf .leaf Encodes.leaf Encodes.leaf
  exact ⟨hE, by decide,
    mp_tree_free_returns_all_but_leaves_handle freeDemo _ 8 hE (by decide)⟩
